import Mathlib

/-!
# Bulk attribute writes of `BParticles::ParticleSets`

A shallow embedding of `particle_set.hpp` / `particle_set.cpp`.

* Block storage is a list of blocks; a block holds one packed byte column per
  attribute.  A byte is a natural number that the code never interprets.
* A `void *` into block storage is a `Pointer` (block, attribute column, byte
  offset); a `void *` into a caller buffer is the buffer together with a byte
  offset.
* `memcpy` is option valued: an access outside the source buffer or outside
  the destination column has no defined result.
* Arithmetic that the source does on `uint` is taken modulo `UINT_RANGE`.
-/

namespace BParticles

/-! ## Collaborators -/

/-- Number of values of the C type `uint`; `uint` arithmetic wraps at it. -/
def UINT_RANGE : Nat := 4294967296

/-- Modelled from the spec: the closed set of primitive kinds of the
attribute-type catalogue, which is not part of the two source files. -/
inductive AttributeType where
  | Byte
  | Integer
  | Float
  | Float3
  deriving DecidableEq, Repr

/-- Modelled from the spec: `size_of_attribute_type` of the attribute-type
catalogue, which is not part of the two source files.  The spec gives a 1-byte
integer, a 4-byte signed integer, a 4-byte float and a 3×4-byte float vector. -/
def size_of_attribute_type : AttributeType → Nat
  | .Byte => 1
  | .Integer => 4
  | .Float => 4
  | .Float3 => 12

/-- Modelled from the spec: one attribute descriptor of the schema, `{name,
type, default_value: bytes}`. -/
structure AttributeDescriptor where
  name : String
  type : AttributeType
  default_value : List Nat
  deriving DecidableEq, Repr

/-- Modelled from the spec: the schema `AttributesInfo`, an ordered sequence of
attribute descriptors; the position of a descriptor is its index.  Its
declaration is not part of the two source files. -/
structure AttributesInfo where
  attributes : List AttributeDescriptor
  deriving DecidableEq, Repr

/-- Modelled from the spec: `type_of(index) -> AttributeType`; an index outside
the schema has no defined result. -/
def AttributesInfo.type_of (info : AttributesInfo) (index : Nat) : Option AttributeType :=
  (info.attributes[index]?).map fun d => d.type

/-- Modelled from the spec: `default_value_ptr(index)`, the bytes of the
registered default value. -/
def AttributesInfo.default_value_ptr (info : AttributesInfo) (index : Nat) :
    Option (List Nat) :=
  (info.attributes[index]?).map fun d => d.default_value

/-- Modelled from the spec: `attribute_index(name) -> index`, which fails if
the name is absent. -/
def AttributesInfo.attribute_index (info : AttributesInfo) (name : String) : Option Nat :=
  if (info.attributes.map fun d => d.name).indexOf name < info.attributes.length then
    some ((info.attributes.map fun d => d.name).indexOf name)
  else none

/-- Modelled from the spec: a block has a fixed capacity, a live count of
occupied slots, and one contiguous byte array per attribute.  The block
container is not part of the two source files. -/
structure ParticlesBlock where
  capacity : Nat
  active_amount : Nat
  columns : List (List Nat)
  deriving DecidableEq, Repr

/-- Block storage: the blocks owned by the container, addressed by position. -/
abbrev Memory := List ParticlesBlock

/-- The column of attribute `a` in block `b`, when both exist. -/
def Memory.column (mem : Memory) (b a : Nat) : Option (List Nat) :=
  (mem[b]?).bind fun blk => blk.columns[a]?

/-- Replace the column of attribute `a` in block `b`. -/
def Memory.set_column (mem : Memory) (b a : Nat) (col : List Nat) : Memory :=
  match mem[b]? with
  | some blk => mem.set b { blk with columns := blk.columns.set a col }
  | none => mem

/-- The byte at offset `j` of the column of attribute `a` in block `b`. -/
def Memory.byte (mem : Memory) (b a j : Nat) : Option Nat :=
  (mem.column b a).bind fun col => col[j]?

/-- The `n` bytes from offset `ofs` of a byte sequence, when they all exist. -/
def read_bytes (buf : List Nat) (ofs n : Nat) : Option (List Nat) :=
  if ofs + n ≤ buf.length then some ((buf.drop ofs).take n) else none

/-- The element of byte width `es` at slot `p` of the column of attribute `a`
in block `b`. -/
def Memory.element (mem : Memory) (b a es p : Nat) : Option (List Nat) :=
  (mem.column b a).bind fun col => read_bytes col (es * p) es

/-- A `void *` into block storage. -/
structure Pointer where
  block : Nat
  column : Nat
  offset : Nat
  deriving DecidableEq, Repr

/-- Modelled from the spec: the macro `POINTER_OFFSET(v, ofs)`, untyped pointer
arithmetic that moves `v` by `ofs` bytes.  The macro is not part of the two
source files. -/
def POINTER_OFFSET (v : Pointer) (ofs : Nat) : Pointer :=
  { v with offset := v.offset + ofs }

/-- Modelled from the spec: `AttributeArrays::get_ptr(index)` of a block, a
pointer to the start of the indexed attribute column.  There is no such pointer
when the block or the column does not exist. -/
def get_ptr (mem : Memory) (block index : Nat) : Option Pointer :=
  match mem.column block index with
  | some _ => some ⟨block, index, 0⟩
  | none => none

/-- The library call `memcpy(dst, src + src_offset, n)` with `dst` in block
storage and `src` a caller buffer.  It is defined only when all `n` source
bytes lie in the buffer and all `n` destination bytes lie in the column. -/
def memcpy (mem : Memory) (dst : Pointer) (src : List Nat) (src_offset n : Nat) :
    Option Memory :=
  match mem.column dst.block dst.column with
  | none => none
  | some col =>
    if src_offset + n ≤ src.length ∧ dst.offset + n ≤ col.length then
      some (mem.set_column dst.block dst.column
        (col.take dst.offset ++ (src.drop src_offset).take n ++ col.drop (dst.offset + n)))
    else none

/-! ## ParticleSet -/

/-- A set of particles all of which are in the same block: `m_block` is the
position of the block in storage, `m_pindices` the indices into its columns. -/
structure ParticleSet where
  block : Nat
  pindices : List Nat
  deriving DecidableEq, Repr

/-- `ParticleSet::size`. -/
def ParticleSet.size (s : ParticleSet) : Nat := s.pindices.length

/-- Modelled from the spec: `ArrayRef::first`, the first index of the
sequence.  The container is not part of the two source files. -/
def ArrayRef.first (a : List Nat) : Option Nat := a[0]?

/-- Modelled from the spec: `ArrayRef::last`, the last index of the sequence,
at position `size - 1`. -/
def ArrayRef.last (a : List Nat) : Option Nat := a[a.length - 1]?

/-- `ParticleSet::pindices_are_trivial`. -/
def ParticleSet.pindices_are_trivial (s : ParticleSet) : Bool :=
  if s.pindices.length = 0 then true
  else
    ArrayRef.first s.pindices == some 0 &&
      ArrayRef.last s.pindices == some (s.pindices.length - 1)

/-! ## ParticleSets -/

/-- The class `ParticleSets`. -/
structure ParticleSets where
  m_particle_type_name : String
  m_attributes_info : AttributesInfo
  m_sets : List ParticleSet
  m_size : Nat
  deriving DecidableEq, Repr

/-- The constructor `ParticleSets::ParticleSets`: `m_size` starts at 0 and
every set adds its size to it, in `uint` arithmetic. -/
def ParticleSets.new (particle_type_name : String) (attributes_info : AttributesInfo)
    (sets : List ParticleSet) : ParticleSets :=
  { m_particle_type_name := particle_type_name
    m_attributes_info := attributes_info
    m_sets := sets
    m_size := sets.foldl (fun m_size set => (m_size + set.size) % UINT_RANGE) 0 }

/-- Inner loop of `set_elements`: `for (uint i = 0; i < size; i++)` over the
pindices from position `i` on. -/
def set_elements_inner (element_size : Nat) (dst : Pointer) (data : List Nat)
    (remaining_data : Nat) : List Nat → Nat → Memory → Option Memory
  | [], _, mem => some mem
  | pindex :: rest, i, mem =>
    match memcpy mem (POINTER_OFFSET dst ((element_size * pindex) % UINT_RANGE)) data
        (remaining_data + (element_size * i) % UINT_RANGE) element_size with
    | none => none
    | some mem1 => set_elements_inner element_size dst data remaining_data rest (i + 1) mem1

/-- Outer loop of `set_elements`: `for (ParticleSet particles : m_sets)`,
carrying `remaining_data` as a byte offset into `data`. -/
def set_elements_outer (index element_size : Nat) (data : List Nat) :
    List ParticleSet → Nat → Memory → Option Memory
  | [], _, mem => some mem
  | particles :: rest, remaining_data, mem =>
    match get_ptr mem particles.block index with
    | none => none
    | some dst =>
      match set_elements_inner element_size dst data remaining_data particles.pindices 0 mem with
      | none => none
      | some mem1 =>
        set_elements_outer index element_size data rest
          (remaining_data + (particles.size * element_size) % UINT_RANGE) mem1

/-- `ParticleSets::set_elements`. -/
def ParticleSets.set_elements (ps : ParticleSets) (index : Nat) (data : List Nat)
    (mem : Memory) : Option Memory :=
  match ps.m_attributes_info.type_of index with
  | none => none
  | some type =>
    set_elements_outer index (size_of_attribute_type type) data ps.m_sets 0 mem

/-- Inner loop of `fill_elements`: `for (uint pindex : particles.pindices())`. -/
def fill_elements_inner (element_size : Nat) (dst : Pointer) (value : List Nat) :
    List Nat → Memory → Option Memory
  | [], mem => some mem
  | pindex :: rest, mem =>
    match memcpy mem (POINTER_OFFSET dst ((element_size * pindex) % UINT_RANGE)) value 0
        element_size with
    | none => none
    | some mem1 => fill_elements_inner element_size dst value rest mem1

/-- Outer loop of `fill_elements`. -/
def fill_elements_outer (index element_size : Nat) (value : List Nat) :
    List ParticleSet → Memory → Option Memory
  | [], mem => some mem
  | particles :: rest, mem =>
    match get_ptr mem particles.block index with
    | none => none
    | some dst =>
      match fill_elements_inner element_size dst value particles.pindices mem with
      | none => none
      | some mem1 => fill_elements_outer index element_size value rest mem1

/-- `ParticleSets::fill_elements`. -/
def ParticleSets.fill_elements (ps : ParticleSets) (index : Nat) (value : List Nat)
    (mem : Memory) : Option Memory :=
  match ps.m_attributes_info.type_of index with
  | none => none
  | some type => fill_elements_outer index (size_of_attribute_type type) value ps.m_sets mem

/-- Inner loop of `set_repeated_elements`, carrying `offset`: after every copy
`offset++`, and `offset` goes back to 0 when it equals `data_element_amount`. -/
def set_repeated_elements_inner (element_size : Nat) (dst : Pointer) (data : List Nat)
    (data_element_amount : Nat) : List Nat → Nat → Memory → Option (Memory × Nat)
  | [], offset, mem => some (mem, offset)
  | pindex :: rest, offset, mem =>
    match memcpy mem (POINTER_OFFSET dst ((element_size * pindex) % UINT_RANGE)) data
        ((element_size * offset) % UINT_RANGE) element_size with
    | none => none
    | some mem1 =>
      set_repeated_elements_inner element_size dst data data_element_amount rest
        (if (offset + 1) % UINT_RANGE = data_element_amount then 0
         else (offset + 1) % UINT_RANGE) mem1

/-- Outer loop of `set_repeated_elements`; `offset` lives across the sets. -/
def set_repeated_elements_outer (index element_size : Nat) (data : List Nat)
    (data_element_amount : Nat) : List ParticleSet → Nat → Memory → Option Memory
  | [], _, mem => some mem
  | particles :: rest, offset, mem =>
    match get_ptr mem particles.block index with
    | none => none
    | some dst =>
      match set_repeated_elements_inner element_size dst data data_element_amount
          particles.pindices offset mem with
      | none => none
      | some (mem1, offset1) =>
        set_repeated_elements_outer index element_size data data_element_amount rest
          offset1 mem1

/-- `ParticleSets::set_repeated_elements`. -/
def ParticleSets.set_repeated_elements (ps : ParticleSets) (index : Nat) (data : List Nat)
    (data_element_amount : Nat) (default_value : List Nat) (mem : Memory) : Option Memory :=
  if data_element_amount = 0 then ps.fill_elements index default_value mem
  else
    match ps.m_attributes_info.type_of index with
    | none => none
    | some type =>
      set_repeated_elements_outer index (size_of_attribute_type type) data
        data_element_amount ps.m_sets 0 mem

/-! ## Typed entry points -/

/-- How a call can stop before it returns. -/
inductive Error where
  | assertion_failed
  | lookup_failed
  deriving DecidableEq, Repr

/-- Outcome of a call on block storage. -/
inductive Result where
  /-- The call returned; `storage` is the block storage after it. -/
  | returned (storage : Memory)
  /-- The call was stopped by a failed check; `storage` is the block storage
  at that point. -/
  | aborted (e : Error) (storage : Memory)
  /-- The call made an access that has no defined result. -/
  | undefined
  deriving DecidableEq, Repr

/-- The outcome of a call that runs `body` to its end. -/
def Result.of_body (body : Option Memory) : Result :=
  match body with
  | some mem => .returned mem
  | none => .undefined

/-- Modelled from the spec: the macro `BLI_assert(cond)`, which is not part of
the two source files.  A false condition is a contract violation that halts the
call; the call goes on with `k` otherwise. -/
def BLI_assert (cond : Bool) (mem : Memory) (k : Result) : Result :=
  if cond then k else .aborted .assertion_failed mem

/-- Modelled from the spec: `(void *)data.begin()`, the packed bytes of an
`ArrayRef<T>`; an element is given by its byte pattern. -/
def ArrayRef.begin (data : List (List Nat)) : List Nat := data.flatten

/-- `ParticleSets::set<T>(uint index, ArrayRef<T> data)`; `T` is given by the
attribute type `attribute_type_by_type<T>::value`. -/
def ParticleSets.set (ps : ParticleSets) (T : AttributeType) (index : Nat)
    (data : List (List Nat)) (mem : Memory) : Result :=
  BLI_assert (data.length == ps.m_size) mem <|
  match ps.m_attributes_info.type_of index with
  | none => .undefined
  | some type =>
    BLI_assert (type == T) mem <|
    Result.of_body (ps.set_elements index (ArrayRef.begin data) mem)

/-- `ParticleSets::set_repeated<T>(uint index, ArrayRef<T> data)`. -/
def ParticleSets.set_repeated (ps : ParticleSets) (T : AttributeType) (index : Nat)
    (data : List (List Nat)) (mem : Memory) : Result :=
  match ps.m_attributes_info.type_of index with
  | none => .undefined
  | some type =>
    BLI_assert (type == T) mem <|
    match ps.m_attributes_info.default_value_ptr index with
    | none => .undefined
    | some default_value =>
      Result.of_body
        (ps.set_repeated_elements index (ArrayRef.begin data) data.length default_value mem)

/-- The four bytes of a 32-bit pattern, least significant first. -/
def bytes_of_uint32 (bits : Nat) : List Nat :=
  [bits % 256, bits / 256 % 256, bits / 65536 % 256, bits / 16777216 % 256]

/-- The object representation of a `uint8_t`. -/
def bytes_of_uint8 (value : Nat) : List Nat := [value % 256]

/-- The object representation of an `int32_t` (two's complement, least
significant byte first). -/
def bytes_of_int32 (value : Int) : List Nat :=
  bytes_of_uint32 (value % 4294967296).toNat

/-- A `float`, given by its 32-bit pattern. -/
structure float where
  bits : Nat
  deriving DecidableEq, Repr

/-- Modelled from the spec: a `float3`, a vector of three 4-byte floats. -/
structure float3 where
  x : float
  y : float
  z : float
  deriving DecidableEq, Repr

/-- The object representation of a `float`. -/
def bytes_of_float (value : float) : List Nat := bytes_of_uint32 value.bits

/-- The object representation of a `float3`. -/
def bytes_of_float3 (value : float3) : List Nat :=
  bytes_of_float value.x ++ bytes_of_float value.y ++ bytes_of_float value.z

/-- `ParticleSets::fill_byte(uint index, uint8_t value)`. -/
def ParticleSets.fill_byte (ps : ParticleSets) (index : Nat) (value : Nat) (mem : Memory) :
    Result :=
  Result.of_body (ps.fill_elements index (bytes_of_uint8 value) mem)

/-- `ParticleSets::fill_integer(uint index, int32_t value)`. -/
def ParticleSets.fill_integer (ps : ParticleSets) (index : Nat) (value : Int) (mem : Memory) :
    Result :=
  Result.of_body (ps.fill_elements index (bytes_of_int32 value) mem)

/-- `ParticleSets::fill_float(uint index, float value)`. -/
def ParticleSets.fill_float (ps : ParticleSets) (index : Nat) (value : float) (mem : Memory) :
    Result :=
  Result.of_body (ps.fill_elements index (bytes_of_float value) mem)

/-- `ParticleSets::fill_float3(uint index, float3 value)`. -/
def ParticleSets.fill_float3 (ps : ParticleSets) (index : Nat) (value : float3)
    (mem : Memory) : Result :=
  Result.of_body (ps.fill_elements index (bytes_of_float3 value) mem)

/-! ## Entry points by attribute name -/

/-- `ParticleSets::set<T>(StringRef name, ArrayRef<T> data)`: the name is
resolved with `attribute_index`, then the call goes on by index.  How a failed
resolution surfaces is modelled from the spec, a reported lookup failure. -/
def ParticleSets.set_by_name (ps : ParticleSets) (T : AttributeType) (name : String)
    (data : List (List Nat)) (mem : Memory) : Result :=
  match ps.m_attributes_info.attribute_index name with
  | none => .aborted .lookup_failed mem
  | some index => ps.set T index data mem

/-- `ParticleSets::set_repeated<T>(StringRef name, ArrayRef<T> data)`. -/
def ParticleSets.set_repeated_by_name (ps : ParticleSets) (T : AttributeType) (name : String)
    (data : List (List Nat)) (mem : Memory) : Result :=
  match ps.m_attributes_info.attribute_index name with
  | none => .aborted .lookup_failed mem
  | some index => ps.set_repeated T index data mem

/-- `ParticleSets::fill_byte(StringRef name, uint8_t value)`. -/
def ParticleSets.fill_byte_by_name (ps : ParticleSets) (name : String) (value : Nat)
    (mem : Memory) : Result :=
  match ps.m_attributes_info.attribute_index name with
  | none => .aborted .lookup_failed mem
  | some index => ps.fill_byte index value mem

/-- `ParticleSets::fill_integer(StringRef name, int32_t value)`. -/
def ParticleSets.fill_integer_by_name (ps : ParticleSets) (name : String) (value : Int)
    (mem : Memory) : Result :=
  match ps.m_attributes_info.attribute_index name with
  | none => .aborted .lookup_failed mem
  | some index => ps.fill_integer index value mem

/-- `ParticleSets::fill_float(StringRef name, float value)`. -/
def ParticleSets.fill_float_by_name (ps : ParticleSets) (name : String) (value : float)
    (mem : Memory) : Result :=
  match ps.m_attributes_info.attribute_index name with
  | none => .aborted .lookup_failed mem
  | some index => ps.fill_float index value mem

/-- `ParticleSets::fill_float3(StringRef name, float3 value)`. -/
def ParticleSets.fill_float3_by_name (ps : ParticleSets) (name : String) (value : float3)
    (mem : Memory) : Result :=
  match ps.m_attributes_info.attribute_index name with
  | none => .aborted .lookup_failed mem
  | some index => ps.fill_float3 index value mem

/-! ## ParticleSet construction and ranges -/

/-- Outcome of a call that computes a value and does not touch storage. -/
inductive Outcome (α : Type) where
  /-- The call returned `value`. -/
  | returned (value : α)
  /-- The call was stopped by a failed check. -/
  | aborted (e : Error)
  /-- The call made an access that has no defined result. -/
  | undefined
  deriving DecidableEq, Repr

/-- Modelled from the spec: the macro `BLI_assert(cond)` in a function that
returns a value; a false condition halts the call. -/
def BLI_assert_value {α : Type} (cond : Bool) (k : Outcome α) : Outcome α :=
  if cond then k else .aborted .assertion_failed

/-- Modelled from the spec: `Range<uint>(start, one_after_last)`, the half-open
range `[start, one_after_last)`.  The class is not part of the two source
files. -/
structure Range where
  start : Nat
  one_after_last : Nat
  deriving DecidableEq, Repr

/-- The members of a half-open range, in ascending order. -/
def Range.members (r : Range) : List Nat :=
  List.range' r.start (r.one_after_last - r.start)

/-- The constructor `ParticleSet::ParticleSet(block, pindices)`: it stores the
block and the index list; its body is empty. -/
def ParticleSet.new (block : Nat) (pindices : List Nat) : Outcome ParticleSet :=
  .returned { block := block, pindices := pindices }

/-- `ParticleSet::trivial_pindices`; `last() + 1` is `uint` arithmetic. -/
def ParticleSet.trivial_pindices (s : ParticleSet) : Outcome Range :=
  BLI_assert_value s.pindices_are_trivial <|
  if s.pindices.length = 0 then .returned ⟨0, 0⟩
  else
    match ArrayRef.first s.pindices, ArrayRef.last s.pindices with
    | some first, some last => .returned ⟨first, (last + 1) % UINT_RANGE⟩
    | _, _ => .undefined

/-! ## Specification vocabulary -/

/-- What the code leaves alone in every block: capacity, live count, and the
number and byte length of the columns. -/
def Memory.metadata (mem : Memory) : List (Nat × Nat × List Nat) :=
  mem.map fun blk => (blk.capacity, blk.active_amount, blk.columns.map List.length)

/-- The byte length of the column of attribute `a` in block `b`. -/
def Memory.column_length (mem : Memory) (b a : Nat) : Option Nat :=
  (mem.column b a).map List.length

/-- The destinations `(block, pindex)` of a sequence of sets, in set-then-pindex
order. -/
def destinations : List ParticleSet → List (Nat × Nat)
  | [] => []
  | s :: rest => s.pindices.map (fun p => (s.block, p)) ++ destinations rest

/-- One element copy: to slot `pindex` of a column of block `block`, from byte
offset `src_offset` of the source buffer. -/
structure Write where
  block : Nat
  pindex : Nat
  src_offset : Nat
  deriving DecidableEq, Repr

/-- A sequence of element copies of width `es` into the column `index`, done
one after the other. -/
def scatter (index es : Nat) (src : List Nat) : List Write → Memory → Option Memory
  | [], mem => some mem
  | w :: ws, mem =>
    match memcpy mem ⟨w.block, index, es * w.pindex⟩ src w.src_offset es with
    | none => none
    | some mem1 => scatter index es src ws mem1

/-- The copies that send source offset `f k` to the `k`-th destination,
counting the destinations from `k`. -/
def writes_from (f : Nat → Nat) : List (Nat × Nat) → Nat → List Write
  | [], _ => []
  | d :: ds, k => ⟨d.1, d.2, f k⟩ :: writes_from f ds (k + 1)

/-- The pindices of the set are below the capacity of its block: the block
exists, its column `index` holds `capacity` elements of `es` bytes, and every
pindex is below the capacity. -/
def ParticleSet.in_capacity (mem : Memory) (index es : Nat) (s : ParticleSet) : Bool :=
  match mem[s.block]? with
  | none => false
  | some blk =>
    match blk.columns[index]? with
    | none => false
    | some col =>
      col.length == es * blk.capacity && s.pindices.all fun p => decide (p < blk.capacity)

/-- Every selected slot of the set starts at a byte offset that is a `uint`
value: the product `element_size * pindex` of the loops does not wrap. -/
def ParticleSet.offsets_fit (es : Nat) (s : ParticleSet) : Bool :=
  s.pindices.all fun p => decide (es * p < UINT_RANGE)

/-- What a loop over the set needs of storage: the column `index` of its block
exists, every selected slot lies in it, and every selected slot starts at a
`uint` byte offset. -/
def Writable (mem : Memory) (index es : Nat) (s : ParticleSet) : Prop :=
  ∃ L, mem.column_length s.block index = some L ∧
    ∀ p ∈ s.pindices, es * p + es ≤ L ∧ es * p < UINT_RANGE

/-- A call of one of the bulk-write entry points that take an attribute
index. -/
inductive BulkWrite where
  | set (T : AttributeType) (data : List (List Nat))
  | set_repeated (T : AttributeType) (data : List (List Nat))
  | fill_byte (value : Nat)
  | fill_integer (value : Int)
  | fill_float (value : float)
  | fill_float3 (value : float3)
  deriving DecidableEq, Repr

/-- The outcome of a bulk-write call on attribute `index`. -/
def BulkWrite.run (ps : ParticleSets) (index : Nat) : BulkWrite → Memory → Result
  | .set T data, mem => ps.set T index data mem
  | .set_repeated T data, mem => ps.set_repeated T index data mem
  | .fill_byte value, mem => ps.fill_byte index value mem
  | .fill_integer value, mem => ps.fill_integer index value mem
  | .fill_float value, mem => ps.fill_float index value mem
  | .fill_float3 value, mem => ps.fill_float3 index value mem

/-! ## A small configuration -/

/-- A schema with a float vector, a 4-byte integer and a 1-byte attribute. -/
def example_info : AttributesInfo :=
  { attributes :=
      [⟨"Position", .Float3, List.replicate 12 0⟩, ⟨"ID", .Integer, [9, 0, 0, 0]⟩,
        ⟨"Kill State", .Byte, [0]⟩] }

/-- A block of capacity 4 for `example_info`, every byte holding `canary`. -/
def example_block (canary : Nat) : ParticlesBlock :=
  { capacity := 4
    active_amount := 4
    columns := [List.replicate 48 canary, List.replicate 16 canary, List.replicate 4 canary] }

/-- Storage of two blocks, with the byte patterns 170 and 187. -/
def example_storage : Memory := [example_block 170, example_block 187]

/-- Four destinations, the first two in block 1 and the last two in block 0. -/
def example_sets : List ParticleSet := [⟨1, [0, 2]⟩, ⟨0, [1, 3]⟩]

/-- Five destinations in two sets of sizes 3 and 2. -/
def example_sets5 : List ParticleSet := [⟨0, [0, 2, 3]⟩, ⟨1, [1, 2]⟩]

/-- Seven destinations in two blocks, in sets of sizes 3 and 4. -/
def example_sets7 : List ParticleSet := [⟨0, [0, 1, 3]⟩, ⟨1, [0, 1, 2, 3]⟩]

/-- Destinations that overlap: slot 1 of block 0 is listed in both sets. -/
def example_sets_overlap : List ParticleSet := [⟨0, [0, 1]⟩, ⟨0, [1, 2]⟩]

/-! ## A block beyond the `uint` byte range -/

/-- A schema with one float-vector attribute. -/
def large_info : AttributesInfo :=
  { attributes := [⟨"Position", .Float3, List.replicate 12 0⟩] }

/-- A block of capacity 357913943: its float-vector column has
`12 * 357913943 = 4294967316` bytes, all zero, twenty more than `UINT_RANGE`. -/
def large_block : ParticlesBlock :=
  { capacity := 357913943
    active_amount := 357913943
    columns := [List.replicate 4294967316 0] }

/-- Storage that holds the one large block. -/
def large_storage : Memory := [large_block]

/-- One destination, the last slot of the large block; its byte offset
`12 * 357913942 = 4294967304` is `8` modulo `UINT_RANGE`. -/
def large_sets : List ParticleSet := [⟨0, [357913942]⟩]

/-- Two destinations of the large block, the first slot and the last one. -/
def large_sets_first_last : List ParticleSet := [⟨0, [0, 357913942]⟩]

/-- The destinations of `large_sets_first_last` in the other order. -/
def large_sets_last_first : List ParticleSet := [⟨0, [357913942, 0]⟩]

/-- Twelve distinct bytes. -/
def twelve_bytes : List Nat := [1, 2, 3, 4, 5, 6, 7, 8, 9, 10, 11, 12]

/-! ## More than 4 GiB of values over small sets -/

theorem Memory.column_set_column (mem : Memory) (b a : Nat) (col c0 : List Nat)
    (h : mem.column b a = some c0) (b1 a1 : Nat) :
    (mem.set_column b a col).column b1 a1 =
      if b1 = b ∧ a1 = a then some col else mem.column b1 a1 := by
  unfold Memory.column at h
  cases hb : mem[b]? with
  | none => simp [hb] at h
  | some blk =>
    have hlt : b < mem.length := by
      rcases List.getElem?_eq_some.mp hb with ⟨h1, _⟩
      exact h1
    simp only [hb, Option.some_bind] at h
    have hlta : a < blk.columns.length := by
      rcases List.getElem?_eq_some.mp h with ⟨h1, _⟩
      exact h1
    unfold Memory.set_column Memory.column
    simp only [hb]
    by_cases hb1 : b1 = b
    · subst hb1
      simp only [List.getElem?_set, hlt, if_true, Option.some_bind, true_and]
      by_cases ha1 : a1 = a
      · subst ha1
        simp [hlta]
      · have : ¬ a = a1 := fun e => ha1 e.symm
        simp [ha1, this, hb]
    · have : ¬ b = b1 := fun e => hb1 e.symm
      simp [List.getElem?_set, this, hb1]

theorem Memory.metadata_set_column (mem : Memory) (b a : Nat) (col c0 : List Nat)
    (h : mem.column b a = some c0) (hlen : col.length = c0.length) :
    (mem.set_column b a col).metadata = mem.metadata := by
  unfold Memory.column at h
  cases hb : mem[b]? with
  | none => simp [hb] at h
  | some blk =>
    simp only [hb, Option.some_bind] at h
    unfold Memory.set_column Memory.metadata
    simp only [hb]
    apply List.ext_getElem?
    intro n
    simp only [List.getElem?_map, List.getElem?_set]
    by_cases hn : b = n
    · subst hn
      have hlt : b < mem.length := by
        rcases List.getElem?_eq_some.mp hb with ⟨h1, _⟩
        exact h1
      simp only [hlt, if_true, hb, Option.map_some']
      congr 3
      apply List.ext_getElem?
      intro m
      simp only [List.getElem?_map, List.getElem?_set]
      by_cases hm : a = m
      · subst hm
        have hlta : a < blk.columns.length := by
          rcases List.getElem?_eq_some.mp h with ⟨h1, _⟩
          exact h1
        simp [hlta, h, hlen]
      · simp [hm]
    · simp [hn]

theorem Memory.column_length_of_metadata (mem mem1 : Memory)
    (h : mem1.metadata = mem.metadata) (b a : Nat) :
    mem1.column_length b a = mem.column_length b a := by
  have key : ∀ m : Memory, m.column_length b a =
      ((m.metadata)[b]?).bind fun t => t.2.2[a]? := by
    intro m
    unfold Memory.column_length Memory.column Memory.metadata
    cases hb : m[b]? with
    | none => simp [hb]
    | some blk => simp [hb]
  rw [key mem1, key mem, h]

/-! ## One copy -/

theorem memcpy_spec (mem mem1 : Memory) (dst : Pointer) (src : List Nat) (so n : Nat)
    (h : memcpy mem dst src so n = some mem1) :
    ∃ col, mem.column dst.block dst.column = some col ∧ so + n ≤ src.length ∧
      dst.offset + n ≤ col.length ∧
      mem1 = mem.set_column dst.block dst.column
        (col.take dst.offset ++ (src.drop so).take n ++ col.drop (dst.offset + n)) := by
  unfold memcpy at h
  cases hc : mem.column dst.block dst.column with
  | none => simp [hc] at h
  | some col =>
    simp only [hc] at h
    by_cases hb : so + n ≤ src.length ∧ dst.offset + n ≤ col.length
    · rw [if_pos hb] at h
      exact ⟨col, rfl, hb.1, hb.2, (Option.some.inj h).symm⟩
    · rw [if_neg hb] at h
      cases h

theorem memcpy_defined (mem : Memory) (dst : Pointer) (src : List Nat) (so n L : Nat)
    (hc : mem.column_length dst.block dst.column = some L)
    (hs : so + n ≤ src.length) (hd : dst.offset + n ≤ L) :
    ∃ mem1, memcpy mem dst src so n = some mem1 := by
  unfold Memory.column_length at hc
  cases hcol : mem.column dst.block dst.column with
  | none => simp [hcol] at hc
  | some col =>
    simp only [hcol, Option.map_some', Option.some.injEq] at hc
    unfold memcpy
    simp only [hcol]
    rw [if_pos ⟨hs, by omega⟩]
    exact ⟨_, rfl⟩

theorem patch_length (col src : List Nat) (d so n : Nat) (hs : so + n ≤ src.length)
    (hd : d + n ≤ col.length) :
    (col.take d ++ (src.drop so).take n ++ col.drop (d + n)).length = col.length := by
  simp only [List.length_append, List.length_take, List.length_drop]
  omega

theorem patch_getElem? (col src : List Nat) (d so n : Nat) (hs : so + n ≤ src.length)
    (hd : d + n ≤ col.length) (j : Nat) :
    (col.take d ++ (src.drop so).take n ++ col.drop (d + n))[j]? =
      if d ≤ j ∧ j < d + n then src[so + (j - d)]? else col[j]? := by
  have h1 : (col.take d).length = d := by
    simp only [List.length_take]; omega
  have h2 : ((src.drop so).take n).length = n := by
    simp only [List.length_take, List.length_drop]; omega
  by_cases hj1 : j < d
  · have : ¬ (d ≤ j ∧ j < d + n) := by omega
    rw [if_neg this, List.append_assoc, List.getElem?_append_left (by omega),
      List.getElem?_take_of_lt hj1]
  · by_cases hj2 : j < d + n
    · rw [if_pos ⟨by omega, hj2⟩, List.append_assoc, List.getElem?_append_right (by omega),
        List.getElem?_append_left (by omega), h1, List.getElem?_take_of_lt (by omega),
        List.getElem?_drop]
    · have : ¬ (d ≤ j ∧ j < d + n) := by omega
      rw [if_neg this, List.getElem?_append_right (by simp only [List.length_append]; omega),
        List.length_append, h1, h2, List.getElem?_drop]
      congr 1
      omega

theorem memcpy_metadata (mem mem1 : Memory) (dst : Pointer) (src : List Nat) (so n : Nat)
    (h : memcpy mem dst src so n = some mem1) : mem1.metadata = mem.metadata := by
  obtain ⟨col, hc, hs, hd, rfl⟩ := memcpy_spec mem mem1 dst src so n h
  exact Memory.metadata_set_column mem _ _ _ col hc (patch_length col src _ so n hs hd)

theorem memcpy_column_length (mem mem1 : Memory) (dst : Pointer) (src : List Nat) (so n : Nat)
    (h : memcpy mem dst src so n = some mem1) (b a : Nat) :
    mem1.column_length b a = mem.column_length b a :=
  Memory.column_length_of_metadata mem mem1 (memcpy_metadata mem mem1 dst src so n h) b a

theorem memcpy_byte (mem mem1 : Memory) (dst : Pointer) (src : List Nat) (so n : Nat)
    (h : memcpy mem dst src so n = some mem1) (b a j : Nat) :
    mem1.byte b a j =
      if b = dst.block ∧ a = dst.column ∧ dst.offset ≤ j ∧ j < dst.offset + n then
        src[so + (j - dst.offset)]?
      else mem.byte b a j := by
  obtain ⟨col, hc, hs, hd, rfl⟩ := memcpy_spec mem mem1 dst src so n h
  unfold Memory.byte
  rw [Memory.column_set_column mem _ _ _ col hc]
  by_cases hba : b = dst.block ∧ a = dst.column
  · obtain ⟨rfl, rfl⟩ := hba
    simp only [true_and, if_true, Option.some_bind, hc]
    exact patch_getElem? col src _ so n hs hd j
  · rw [if_neg hba]
    have : ¬ (b = dst.block ∧ a = dst.column ∧ dst.offset ≤ j ∧ j < dst.offset + n) :=
      fun hh => hba ⟨hh.1, hh.2.1⟩
    rw [if_neg this]

theorem slot_disjoint (es p q t j : Nat) (ht : t < es) (hj : j = es * p + t)
    (h1 : es * q ≤ j) (h2 : j < es * q + es) : p = q := by
  rcases Nat.lt_trichotomy p q with hlt | heq | hgt
  · have := Nat.mul_le_mul_left es (Nat.succ_le_of_lt hlt)
    rw [Nat.mul_succ] at this
    omega
  · exact heq
  · have := Nat.mul_le_mul_left es (Nat.succ_le_of_lt hgt)
    rw [Nat.mul_succ] at this
    omega

theorem Memory.element_congr (mem mem1 : Memory) (b a es p : Nat)
    (hL : mem1.column_length b a = mem.column_length b a)
    (hbytes : ∀ t, t < es → mem1.byte b a (es * p + t) = mem.byte b a (es * p + t)) :
    mem1.element b a es p = mem.element b a es p := by
  unfold Memory.column_length at hL
  unfold Memory.byte at hbytes
  unfold Memory.element
  cases h1 : mem1.column b a with
  | none =>
    cases h0 : mem.column b a with
    | none => rfl
    | some c0 => simp [h1, h0] at hL
  | some c1 =>
    cases h0 : mem.column b a with
    | none => simp [h1, h0] at hL
    | some c0 =>
      simp only [h1, h0, Option.map_some', Option.some.injEq] at hL
      simp only [h1, h0, Option.some_bind] at hbytes
      simp only [Option.some_bind, read_bytes, hL]
      by_cases hb : es * p + es ≤ c0.length
      · rw [if_pos hb, if_pos hb]
        congr 1
        apply List.ext_getElem?
        intro t
        simp only [List.getElem?_take, List.getElem?_drop]
        by_cases ht : t < es
        · rw [if_pos ht, if_pos ht]
          exact hbytes t ht
        · rw [if_neg ht, if_neg ht]
      · rw [if_neg hb, if_neg hb]

theorem Memory.element_eq_read (mem : Memory) (b a es p L : Nat) (src : List Nat) (so : Nat)
    (hL : mem.column_length b a = some L) (hb : es * p + es ≤ L)
    (hs : so + es ≤ src.length)
    (hbytes : ∀ t, t < es → mem.byte b a (es * p + t) = src[so + t]?) :
    mem.element b a es p = read_bytes src so es := by
  unfold Memory.column_length at hL
  unfold Memory.byte at hbytes
  unfold Memory.element
  cases h0 : mem.column b a with
  | none => simp [h0] at hL
  | some c0 =>
    simp only [h0, Option.map_some', Option.some.injEq] at hL
    simp only [h0, Option.some_bind] at hbytes
    simp only [Option.some_bind, read_bytes]
    rw [if_pos (by omega), if_pos hs]
    congr 1
    apply List.ext_getElem?
    intro t
    simp only [List.getElem?_take, List.getElem?_drop]
    by_cases ht : t < es
    · rw [if_pos ht, if_pos ht]
      exact hbytes t ht
    · rw [if_neg ht, if_neg ht]

theorem memcpy_element_same (mem mem1 : Memory) (b a es p : Nat) (src : List Nat) (so : Nat)
    (h : memcpy mem ⟨b, a, es * p⟩ src so es = some mem1) :
    mem1.element b a es p = read_bytes src so es := by
  obtain ⟨col, hc, hs, hd, _⟩ := memcpy_spec mem mem1 _ src so es h
  have hL : mem1.column_length b a = some col.length := by
    rw [memcpy_column_length mem mem1 _ src so es h]
    unfold Memory.column_length
    simp only [] at hc
    rw [hc]
    rfl
  apply Memory.element_eq_read mem1 b a es p col.length src so hL hd hs
  intro t ht
  rw [memcpy_byte mem mem1 _ src so es h]
  simp only [true_and]
  rw [if_pos ⟨by omega, by omega⟩]
  congr 2
  omega

theorem memcpy_element_other (mem mem1 : Memory) (b0 a0 p0 b a es p : Nat) (src : List Nat)
    (so : Nat) (h : memcpy mem ⟨b0, a0, es * p0⟩ src so es = some mem1)
    (hne : ¬ (b = b0 ∧ a = a0 ∧ p = p0)) :
    mem1.element b a es p = mem.element b a es p := by
  apply Memory.element_congr mem mem1 b a es p (memcpy_column_length mem mem1 _ src so es h b a)
  intro t ht
  rw [memcpy_byte mem mem1 _ src so es h]
  apply if_neg
  rintro ⟨hb, ha, h1, h2⟩
  exact hne ⟨hb, ha, slot_disjoint es p p0 t _ ht rfl h1 h2⟩

/-! ## Sequences of copies -/

theorem scatter_append (index es : Nat) (src : List Nat) (ws1 ws2 : List Write)
    (mem : Memory) :
    scatter index es src (ws1 ++ ws2) mem =
      (scatter index es src ws1 mem).bind (scatter index es src ws2) := by
  induction ws1 generalizing mem with
  | nil => rfl
  | cons w ws ih =>
    simp only [List.cons_append, scatter]
    cases hm : memcpy mem ⟨w.block, index, es * w.pindex⟩ src w.src_offset es with
    | none => rfl
    | some mem1 => exact ih mem1

theorem scatter_metadata (index es : Nat) (src : List Nat) (ws : List Write)
    (mem mem1 : Memory) (h : scatter index es src ws mem = some mem1) :
    mem1.metadata = mem.metadata := by
  induction ws generalizing mem with
  | nil =>
    simp only [scatter, Option.some.injEq] at h
    rw [h]
  | cons w ws ih =>
    simp only [scatter] at h
    cases hm : memcpy mem ⟨w.block, index, es * w.pindex⟩ src w.src_offset es with
    | none => simp [hm] at h
    | some mem2 =>
      simp only [hm] at h
      rw [ih mem2 h]
      exact memcpy_metadata mem mem2 _ src _ es hm

theorem scatter_column_length (index es : Nat) (src : List Nat) (ws : List Write)
    (mem mem1 : Memory) (h : scatter index es src ws mem = some mem1) (b a : Nat) :
    mem1.column_length b a = mem.column_length b a :=
  Memory.column_length_of_metadata mem mem1 (scatter_metadata index es src ws mem mem1 h) b a

theorem scatter_byte_frame (index es : Nat) (src : List Nat) (ws : List Write)
    (mem mem1 : Memory) (h : scatter index es src ws mem = some mem1) (b a j : Nat)
    (hfree : ∀ w ∈ ws,
      ¬ (b = w.block ∧ a = index ∧ es * w.pindex ≤ j ∧ j < es * w.pindex + es)) :
    mem1.byte b a j = mem.byte b a j := by
  induction ws generalizing mem with
  | nil =>
    simp only [scatter, Option.some.injEq] at h
    rw [h]
  | cons w ws ih =>
    simp only [scatter] at h
    cases hm : memcpy mem ⟨w.block, index, es * w.pindex⟩ src w.src_offset es with
    | none => simp [hm] at h
    | some mem2 =>
      simp only [hm] at h
      rw [ih mem2 h (fun w1 hw1 => hfree w1 (List.mem_cons_of_mem _ hw1)),
        memcpy_byte mem mem2 _ src _ es hm]
      exact if_neg (hfree w (List.mem_cons_self _ _))

theorem scatter_element_frame (index es : Nat) (src : List Nat) (ws : List Write)
    (mem mem1 : Memory) (h : scatter index es src ws mem = some mem1) (b a p : Nat)
    (hfree : ∀ w ∈ ws, ¬ (b = w.block ∧ a = index ∧ p = w.pindex)) :
    mem1.element b a es p = mem.element b a es p := by
  induction ws generalizing mem with
  | nil =>
    simp only [scatter, Option.some.injEq] at h
    rw [h]
  | cons w ws ih =>
    simp only [scatter] at h
    cases hm : memcpy mem ⟨w.block, index, es * w.pindex⟩ src w.src_offset es with
    | none => simp [hm] at h
    | some mem2 =>
      simp only [hm] at h
      rw [ih mem2 h (fun w1 hw1 => hfree w1 (List.mem_cons_of_mem _ hw1))]
      exact memcpy_element_other mem mem2 _ _ _ b a es p src _ hm
        (hfree w (List.mem_cons_self _ _))

theorem scatter_element_last (index es : Nat) (src : List Nat) (ws1 ws2 : List Write)
    (w : Write) (mem mem1 : Memory)
    (h : scatter index es src (ws1 ++ w :: ws2) mem = some mem1)
    (hlast : ∀ w1 ∈ ws2, ¬ (w.block = w1.block ∧ w.pindex = w1.pindex)) :
    mem1.element w.block index es w.pindex = read_bytes src w.src_offset es := by
  rw [scatter_append] at h
  cases h1 : scatter index es src ws1 mem with
  | none => simp [h1] at h
  | some m1 =>
    simp only [h1, Option.some_bind, scatter] at h
    cases hm : memcpy m1 ⟨w.block, index, es * w.pindex⟩ src w.src_offset es with
    | none => simp [hm] at h
    | some m2 =>
      simp only [hm] at h
      rw [scatter_element_frame index es src ws2 m2 mem1 h w.block index w.pindex
        (fun w1 hw1 hh => hlast w1 hw1 ⟨hh.1, hh.2.2⟩)]
      exact memcpy_element_same m1 m2 _ _ es _ src _ hm

theorem scatter_defined (index es : Nat) (src : List Nat) (ws : List Write) (mem : Memory)
    (hok : ∀ w ∈ ws, ∃ L, mem.column_length w.block index = some L ∧
      es * w.pindex + es ≤ L ∧ w.src_offset + es ≤ src.length) :
    ∃ mem1, scatter index es src ws mem = some mem1 := by
  induction ws generalizing mem with
  | nil => exact ⟨mem, rfl⟩
  | cons w ws ih =>
    obtain ⟨L, hL, hd, hs⟩ := hok w (List.mem_cons_self _ _)
    obtain ⟨mem2, hm⟩ := memcpy_defined mem ⟨w.block, index, es * w.pindex⟩ src
      w.src_offset es L hL hs hd
    simp only [scatter, hm]
    apply ih mem2
    intro w1 hw1
    obtain ⟨L1, hL1, hd1, hs1⟩ := hok w1 (List.mem_cons_of_mem _ hw1)
    exact ⟨L1, by rw [memcpy_column_length mem mem2 _ src _ es hm]; exact hL1, hd1, hs1⟩

/-! ## The loops as sequences of copies -/

theorem capacity_writable (mem : Memory) (index es : Nat) (s : ParticleSet)
    (h : s.in_capacity mem index es = true) (hofs : s.offsets_fit es = true) :
    Writable mem index es s := by
  unfold ParticleSet.in_capacity at h
  unfold ParticleSet.offsets_fit at hofs
  simp only [List.all_eq_true, decide_eq_true_eq] at hofs
  cases hb : mem[s.block]? with
  | none => simp [hb] at h
  | some blk =>
    simp only [hb] at h
    cases hc : blk.columns[index]? with
    | none => simp [hc] at h
    | some col =>
      simp only [hc, Bool.and_eq_true, beq_iff_eq, decide_eq_true_eq, List.all_eq_true] at h
      obtain ⟨h1, h3⟩ := h
      refine ⟨col.length, ?_, ?_⟩
      · simp [Memory.column_length, Memory.column, hb, hc]
      · intro p hp
        have := Nat.mul_le_mul_left es (Nat.succ_le_of_lt (h3 p hp))
        rw [Nat.mul_succ] at this
        exact ⟨by omega, hofs p hp⟩

theorem Writable.of_column_length (mem mem1 : Memory) (index es : Nat) (s : ParticleSet)
    (h : ∀ b a, mem1.column_length b a = mem.column_length b a)
    (hw : Writable mem index es s) : Writable mem1 index es s := by
  obtain ⟨L, h1, h3⟩ := hw
  exact ⟨L, by rw [h]; exact h1, h3⟩

theorem Writable.get_ptr (mem : Memory) (index es : Nat) (s : ParticleSet)
    (hw : Writable mem index es s) : get_ptr mem s.block index = some ⟨s.block, index, 0⟩ := by
  obtain ⟨L, h1, _⟩ := hw
  unfold Memory.column_length at h1
  unfold BParticles.get_ptr
  cases hc : mem.column s.block index with
  | none => simp [hc] at h1
  | some col => rfl

theorem Writable.offset_lt (mem : Memory) (index es : Nat) (s : ParticleSet) (_hes : 0 < es)
    (hw : Writable mem index es s) (p : Nat) (hp : p ∈ s.pindices) :
    es * p < UINT_RANGE := by
  obtain ⟨L, _, h3⟩ := hw
  exact (h3 p hp).2

theorem writes_from_append (f : Nat → Nat) (ds1 ds2 : List (Nat × Nat)) (k : Nat) :
    writes_from f (ds1 ++ ds2) k =
      writes_from f ds1 k ++ writes_from f ds2 (k + ds1.length) := by
  induction ds1 generalizing k with
  | nil => simp [writes_from]
  | cons d ds ih =>
    have e : k + 1 + ds.length = k + (ds.length + 1) := by omega
    show writes_from f (d :: (ds ++ ds2)) k = _
    simp only [List.cons_append, writes_from, List.length_cons, ih, e]

theorem writes_from_congr (f g : Nat → Nat) (ds : List (Nat × Nat)) (k : Nat)
    (h : ∀ i, i < ds.length → f (k + i) = g (k + i)) :
    writes_from f ds k = writes_from g ds k := by
  induction ds generalizing k with
  | nil => rfl
  | cons d ds ih =>
    simp only [writes_from]
    have h0 := h 0 (by simp)
    rw [Nat.add_zero] at h0
    rw [h0, ih (k + 1) (by
      intro i hi
      have := h (i + 1) (by simp only [List.length_cons]; omega)
      rw [show k + (i + 1) = k + 1 + i by omega] at this
      exact this)]

theorem mem_writes_from (f : Nat → Nat) (ds : List (Nat × Nat)) (k : Nat) (w : Write)
    (h : w ∈ writes_from f ds k) : (w.block, w.pindex) ∈ ds := by
  induction ds generalizing k with
  | nil => simp [writes_from] at h
  | cons d ds ih =>
    simp only [writes_from, List.mem_cons] at h
    rcases h with h | h
    · subst h
      exact List.mem_cons_self _ _
    · exact List.mem_cons_of_mem _ (ih (k + 1) h)

theorem mem_writes_from_offset (f : Nat → Nat) (ds : List (Nat × Nat)) (k : Nat) (w : Write)
    (h : w ∈ writes_from f ds k) : ∃ i, i < ds.length ∧ w.src_offset = f (k + i) := by
  induction ds generalizing k with
  | nil => simp [writes_from] at h
  | cons d ds ih =>
    simp only [writes_from, List.mem_cons] at h
    rcases h with h | h
    · subst h
      exact ⟨0, by simp, rfl⟩
    · obtain ⟨i, hi, he⟩ := ih (k + 1) h
      refine ⟨i + 1, by simp only [List.length_cons]; omega, ?_⟩
      rw [he]
      congr 1
      omega

theorem mem_destinations (sets : List ParticleSet) (b p : Nat) :
    (b, p) ∈ destinations sets ↔ ∃ s ∈ sets, s.block = b ∧ p ∈ s.pindices := by
  induction sets with
  | nil => simp [destinations]
  | cons s rest ih =>
    simp only [destinations, List.mem_append, List.mem_map, Prod.mk.injEq, ih,
      List.mem_cons, exists_eq_or_imp]
    constructor
    · rintro (⟨q, hq, hb, rfl⟩ | h)
      · exact Or.inl ⟨hb, hq⟩
      · exact Or.inr h
    · rintro (⟨hb, hq⟩ | h)
      · exact Or.inl ⟨p, hq, hb, rfl⟩
      · exact Or.inr h

theorem fill_elements_inner_eq (es b index : Nat) (value : List Nat) (pindices : List Nat)
    (mem : Memory) (k : Nat) (hU : ∀ p ∈ pindices, es * p < UINT_RANGE) :
    fill_elements_inner es ⟨b, index, 0⟩ value pindices mem =
      scatter index es value
        (writes_from (fun _ => 0) (pindices.map fun p => (b, p)) k) mem := by
  induction pindices generalizing mem k with
  | nil => rfl
  | cons p rest ih =>
    simp only [fill_elements_inner, List.map_cons, writes_from, scatter, POINTER_OFFSET,
      Nat.mod_eq_of_lt (hU p (List.mem_cons_self _ _)), Nat.zero_add]
    cases hm : memcpy mem ⟨b, index, es * p⟩ value 0 es with
    | none => rfl
    | some mem1 => exact ih mem1 (k + 1) (fun q hq => hU q (List.mem_cons_of_mem _ hq))

theorem fill_elements_outer_eq (index es : Nat) (value : List Nat) (sets : List ParticleSet)
    (mem : Memory) (k : Nat) (hes : 0 < es) (hW : ∀ s ∈ sets, Writable mem index es s) :
    fill_elements_outer index es value sets mem =
      scatter index es value (writes_from (fun _ => 0) (destinations sets) k) mem := by
  induction sets generalizing mem k with
  | nil => rfl
  | cons s rest ih =>
    have hs := hW s (List.mem_cons_self _ _)
    simp only [fill_elements_outer, hs.get_ptr, destinations, writes_from_append,
      scatter_append]
    rw [fill_elements_inner_eq es s.block index value s.pindices mem k
      (fun p hp => hs.offset_lt mem index es s hes p hp)]
    cases hm : scatter index es value
        (writes_from (fun _ => 0) (s.pindices.map fun p => (s.block, p)) k) mem with
    | none => rfl
    | some mem1 =>
      simp only [Option.some_bind]
      apply ih mem1
      intro s1 hs1
      exact Writable.of_column_length mem mem1 index es s1
        (scatter_column_length index es value _ mem mem1 hm)
        (hW s1 (List.mem_cons_of_mem _ hs1))

theorem set_elements_inner_eq (es b index : Nat) (data : List Nat) (k0 : Nat)
    (pindices : List Nat) (i : Nat) (mem : Memory) (hes : 0 < es)
    (hU : ∀ p ∈ pindices, es * p < UINT_RANGE)
    (hI : es * (i + pindices.length) ≤ UINT_RANGE) :
    set_elements_inner es ⟨b, index, 0⟩ data (es * k0) pindices i mem =
      scatter index es data
        (writes_from (fun k => es * k) (pindices.map fun p => (b, p)) (k0 + i)) mem := by
  induction pindices generalizing mem i with
  | nil => rfl
  | cons p rest ih =>
    have hi : es * i < UINT_RANGE := by
      simp only [List.length_cons, Nat.mul_add, Nat.mul_one] at hI
      omega
    have e1 : es * k0 + es * i = es * (k0 + i) := (Nat.mul_add es k0 i).symm
    simp only [set_elements_inner, List.map_cons, writes_from, scatter, POINTER_OFFSET,
      Nat.mod_eq_of_lt (hU p (List.mem_cons_self _ _)), Nat.mod_eq_of_lt hi, Nat.zero_add, e1]
    cases hm : memcpy mem ⟨b, index, es * p⟩ data (es * (k0 + i)) es with
    | none => rfl
    | some mem1 =>
      simp only []
      rw [ih (i + 1) mem1 (fun q hq => hU q (List.mem_cons_of_mem _ hq))
        (by simp only [List.length_cons] at hI
            rw [show i + 1 + rest.length = i + (rest.length + 1) by omega]
            exact hI)]
      rw [show k0 + (i + 1) = k0 + i + 1 by omega]

theorem set_elements_outer_eq (index es : Nat) (data : List Nat) (sets : List ParticleSet)
    (k0 : Nat) (mem : Memory) (hes : 0 < es) (hW : ∀ s ∈ sets, Writable mem index es s)
    (hfit : ∀ s ∈ sets, es * s.size < UINT_RANGE) :
    set_elements_outer index es data sets (es * k0) mem =
      scatter index es data (writes_from (fun k => es * k) (destinations sets) k0) mem := by
  induction sets generalizing mem k0 with
  | nil => rfl
  | cons s rest ih =>
    have hs := hW s (List.mem_cons_self _ _)
    have hfs := hfit s (List.mem_cons_self _ _)
    have hsz : s.size * es < UINT_RANGE := by
      rw [Nat.mul_comm]
      exact hfs
    have e1 : es * k0 + s.size * es = es * (k0 + s.pindices.length) := by
      rw [Nat.mul_add, Nat.mul_comm s.size es]
      rfl
    simp only [set_elements_outer, hs.get_ptr, destinations, writes_from_append,
      scatter_append, Nat.mod_eq_of_lt hsz, e1, List.length_map]
    have h0 := set_elements_inner_eq es s.block index data k0 s.pindices 0 mem hes
      (fun p hp => hs.offset_lt mem index es s hes p hp)
      (by rw [Nat.zero_add]; exact Nat.le_of_lt hfs)
    rw [Nat.add_zero] at h0
    rw [h0]
    cases hm : scatter index es data
        (writes_from (fun k => es * k) (s.pindices.map fun p => (s.block, p)) k0) mem with
    | none => rfl
    | some mem1 =>
      simp only [Option.some_bind]
      apply ih (k0 + s.pindices.length) mem1
      · intro s1 hs1
        exact Writable.of_column_length mem mem1 index es s1
          (scatter_column_length index es data _ mem mem1 hm)
          (hW s1 (List.mem_cons_of_mem _ hs1))
      · exact fun s1 hs1 => hfit s1 (List.mem_cons_of_mem _ hs1)

theorem succ_mod_cycle (k n : Nat) (hn : 0 < n) :
    (if k % n + 1 = n then 0 else k % n + 1) = (k + 1) % n := by
  rw [← Nat.mod_add_mod k n 1]
  by_cases h : k % n + 1 = n
  · rw [if_pos h, h, Nat.mod_self]
  · rw [if_neg h]
    have := Nat.mod_lt k hn
    exact (Nat.mod_eq_of_lt (by omega)).symm

theorem set_repeated_elements_inner_eq (es b index : Nat) (data : List Nat) (n : Nat)
    (pindices : List Nat) (k : Nat) (mem : Memory) (hn : 0 < n)
    (hnU : n < UINT_RANGE) (hU : ∀ p ∈ pindices, es * p < UINT_RANGE) :
    set_repeated_elements_inner es ⟨b, index, 0⟩ data n pindices (k % n) mem =
      (scatter index es data
        (writes_from (fun k => (es * (k % n)) % UINT_RANGE)
          (pindices.map fun p => (b, p)) k) mem).map
        fun m => (m, (k + pindices.length) % n) := by
  induction pindices generalizing mem k with
  | nil => rfl
  | cons p rest ih =>
    have hlt := Nat.mod_lt k hn
    have hinc : (k % n + 1) % UINT_RANGE = k % n + 1 := Nat.mod_eq_of_lt (by omega)
    simp only [set_repeated_elements_inner, List.map_cons, writes_from, scatter,
      POINTER_OFFSET, Nat.mod_eq_of_lt (hU p (List.mem_cons_self _ _)),
      Nat.zero_add, hinc, succ_mod_cycle k n hn]
    cases hm : memcpy mem ⟨b, index, es * p⟩ data ((es * (k % n)) % UINT_RANGE) es with
    | none => rfl
    | some mem1 =>
      simp only []
      rw [ih (k + 1) mem1 (fun q hq => hU q (List.mem_cons_of_mem _ hq))]
      rw [List.length_cons, show k + 1 + rest.length = k + (rest.length + 1) by omega]

theorem set_repeated_elements_outer_eq (index es : Nat) (data : List Nat) (n : Nat)
    (sets : List ParticleSet) (k : Nat) (mem : Memory) (hes : 0 < es) (hn : 0 < n)
    (hnU : n < UINT_RANGE) (hW : ∀ s ∈ sets, Writable mem index es s) :
    set_repeated_elements_outer index es data n sets (k % n) mem =
      scatter index es data
        (writes_from (fun k => (es * (k % n)) % UINT_RANGE) (destinations sets) k) mem := by
  induction sets generalizing mem k with
  | nil => rfl
  | cons s rest ih =>
    have hs := hW s (List.mem_cons_self _ _)
    simp only [set_repeated_elements_outer, hs.get_ptr, destinations, writes_from_append,
      scatter_append, List.length_map]
    rw [set_repeated_elements_inner_eq es s.block index data n s.pindices k mem hn hnU
      (fun p hp => hs.offset_lt mem index es s hes p hp)]
    cases hm : scatter index es data
        (writes_from (fun k => (es * (k % n)) % UINT_RANGE)
          (s.pindices.map fun p => (s.block, p)) k) mem with
    | none => rfl
    | some mem1 =>
      simp only [Option.map_some', Option.some_bind]
      apply ih (k + s.pindices.length) mem1
      intro s1 hs1
      exact Writable.of_column_length mem mem1 index es s1
        (scatter_column_length index es data _ mem mem1 hm)
        (hW s1 (List.mem_cons_of_mem _ hs1))

/-! ## What a sequence of copies leaves in storage -/

theorem scatter_writes_from_element (index es : Nat) (src : List Nat) (f : Nat → Nat)
    (ds1 ds2 : List (Nat × Nat)) (d : Nat × Nat) (mem mem1 : Memory)
    (h : scatter index es src (writes_from f (ds1 ++ d :: ds2) 0) mem = some mem1)
    (hlast : d ∉ ds2) :
    mem1.element d.1 index es d.2 = read_bytes src (f ds1.length) es := by
  rw [writes_from_append, Nat.zero_add] at h
  simp only [writes_from] at h
  have := scatter_element_last index es src (writes_from f ds1 0)
    (writes_from f ds2 (ds1.length + 1)) ⟨d.1, d.2, f ds1.length⟩ mem mem1 h
    (by
      intro w1 hw1 hh
      apply hlast
      have hm := mem_writes_from f ds2 _ w1 hw1
      simp only [] at hh
      rw [← hh.1, ← hh.2] at hm
      exact hm)
  exact this

theorem split_at_index {α : Type} (ds : List α) (k : Nat) (d : α) (hk : ds[k]? = some d) :
    ds = ds.take k ++ d :: ds.drop (k + 1) ∧ (ds.take k).length = k := by
  obtain ⟨hlt, hd⟩ := List.getElem?_eq_some.mp hk
  constructor
  · rw [← hd, ← List.drop_eq_getElem_cons hlt, List.take_append_drop]
  · rw [List.length_take]
    omega

theorem not_mem_drop_of_nodup {α : Type} (ds : List α) (k : Nat) (d : α)
    (hk : ds[k]? = some d) (hnd : ds.Nodup) : d ∉ ds.drop (k + 1) := by
  obtain ⟨hsplit, _⟩ := split_at_index ds k d hk
  rw [hsplit] at hnd
  have h2 := (List.nodup_append.mp hnd).2.1
  exact (List.nodup_cons.mp h2).1

theorem exists_last_occurrence {α : Type} (ds : List α) (d : α) (hd : d ∈ ds) :
    ∃ k, ds[k]? = some d ∧ d ∉ ds.drop (k + 1) := by
  classical
  induction ds with
  | nil => simp at hd
  | cons x xs ih =>
    by_cases hx : d ∈ xs
    · obtain ⟨k, h1, h2⟩ := ih hx
      exact ⟨k + 1, by simpa using h1, by simpa using h2⟩
    · have hdx : d = x := by
        rcases List.mem_cons.mp hd with h | h
        · exact h
        · exact absurd h hx
      subst hdx
      exact ⟨0, by simp, by simpa using hx⟩

theorem scatter_element_at (index es : Nat) (src : List Nat) (f : Nat → Nat)
    (ds : List (Nat × Nat)) (mem mem1 : Memory)
    (h : scatter index es src (writes_from f ds 0) mem = some mem1)
    (k : Nat) (d : Nat × Nat) (hk : ds[k]? = some d) (hlast : d ∉ ds.drop (k + 1)) :
    mem1.element d.1 index es d.2 = read_bytes src (f k) es := by
  obtain ⟨hsplit, hlen⟩ := split_at_index ds k d hk
  rw [hsplit] at h
  have := scatter_writes_from_element index es src f _ _ d mem mem1 h hlast
  rw [hlen] at this
  exact this

theorem read_bytes_flatten (es : Nat) (data : List (List Nat))
    (hty : ∀ v ∈ data, v.length = es) (i : Nat) (v : List Nat) (hi : data[i]? = some v) :
    read_bytes data.flatten (es * i) es = some v := by
  induction data generalizing i with
  | nil => simp at hi
  | cons x xs ih =>
    have hx : x.length = es := hty x (List.mem_cons_self _ _)
    cases i with
    | zero =>
      simp only [List.getElem?_cons_zero, Option.some.injEq] at hi
      subst hi
      simp only [read_bytes, List.flatten_cons, Nat.mul_zero, Nat.zero_add,
        List.length_append, List.drop_zero]
      rw [if_pos (by omega), List.take_append_of_le_length (by omega),
        List.take_of_length_le (by omega)]
    | succ j =>
      simp only [List.getElem?_cons_succ] at hi
      have := ih (fun v hv => hty v (List.mem_cons_of_mem _ hv)) j hi
      simp only [read_bytes] at this ⊢
      by_cases hb : es * j + es ≤ xs.flatten.length
      · rw [if_pos hb] at this
        simp only [List.flatten_cons, List.length_append, Nat.mul_succ]
        rw [if_pos (by omega)]
        rw [show es * j + es = x.length + es * j by omega, List.drop_append]
        exact this
      · rw [if_neg hb] at this
        cases this

theorem length_flatten_of_width (es : Nat) (data : List (List Nat))
    (hty : ∀ v ∈ data, v.length = es) : data.flatten.length = es * data.length := by
  induction data with
  | nil => simp
  | cons x xs ih =>
    simp only [List.flatten_cons, List.length_append, List.length_cons, Nat.mul_succ,
      ih (fun v hv => hty v (List.mem_cons_of_mem _ hv)), hty x (List.mem_cons_self _ _)]
    omega

theorem foldl_size_eq (sets : List ParticleSet) (acc : Nat)
    (h : acc + (destinations sets).length < UINT_RANGE) :
    sets.foldl (fun m_size set => (m_size + set.size) % UINT_RANGE) acc =
      acc + (destinations sets).length := by
  induction sets generalizing acc with
  | nil => rfl
  | cons s rest ih =>
    simp only [destinations, List.length_append, List.length_map] at h ⊢
    simp only [List.foldl_cons]
    have e : (acc + s.size) % UINT_RANGE = acc + s.pindices.length :=
      Nat.mod_eq_of_lt (by unfold ParticleSet.size; omega)
    rw [e, ih (acc + s.pindices.length) (by omega)]
    omega

theorem m_size_new (name : String) (info : AttributesInfo) (sets : List ParticleSet)
    (h : (destinations sets).length < UINT_RANGE) :
    (ParticleSets.new name info sets).m_size = (destinations sets).length := by
  unfold ParticleSets.new
  simp only []
  rw [foldl_size_eq sets 0 (by omega), Nat.zero_add]

theorem size_of_attribute_type_pos (T : AttributeType) : 0 < size_of_attribute_type T := by
  cases T <;> decide

/-! ## The bulk writes -/

theorem set_elements_eq_scatter (name : String) (info : AttributesInfo)
    (sets : List ParticleSet) (mem : Memory) (T : AttributeType) (index : Nat)
    (data : List Nat) (hT : info.type_of index = some T)
    (hW : ∀ s ∈ sets, Writable mem index (size_of_attribute_type T) s)
    (hset : ∀ s ∈ sets, size_of_attribute_type T * s.size < UINT_RANGE) :
    (ParticleSets.new name info sets).set_elements index data mem =
      scatter index (size_of_attribute_type T) data
        (writes_from (fun k => size_of_attribute_type T * k) (destinations sets) 0) mem := by
  unfold ParticleSets.set_elements
  simp only [ParticleSets.new, hT]
  have := set_elements_outer_eq index (size_of_attribute_type T) data sets 0 mem
    (size_of_attribute_type_pos T) hW hset
  rw [Nat.mul_zero] at this
  exact this

theorem writes_defined (mem : Memory) (index es : Nat) (src : List Nat) (f : Nat → Nat)
    (sets : List ParticleSet) (hW : ∀ s ∈ sets, Writable mem index es s)
    (hsrc : ∀ i, i < (destinations sets).length → f i + es ≤ src.length) :
    ∃ mem1, scatter index es src (writes_from f (destinations sets) 0) mem = some mem1 := by
  apply scatter_defined
  intro w hw
  obtain ⟨s, hs, hb, hp⟩ := (mem_destinations sets w.block w.pindex).mp
    (mem_writes_from f _ 0 w hw)
  obtain ⟨L, h1, h3⟩ := hW s hs
  obtain ⟨i, hi, he⟩ := mem_writes_from_offset f _ 0 w hw
  refine ⟨L, by rw [← hb]; exact h1, (h3 _ hp).1, ?_⟩
  rw [he, Nat.zero_add]
  exact hsrc i hi

/-- C1, with the `uint` ranges of the code made explicit.  Round trip of `set`:
when the destinations are pairwise distinct, the pindices are below the block
capacity, every selected slot starts at a byte offset below `UINT_RANGE`, the
values of every single set occupy fewer than `UINT_RANGE` bytes, there are
fewer than `UINT_RANGE` destinations, the attribute has type `T`, every value is
`sizeof(T)` bytes wide and there are as many values as `m_size`, then `set`
returns, and the element read back from the column at the `k`-th destination
(set-then-pindex order) is `data[k]`, byte for byte. -/
theorem set_round_trip (name : String) (info : AttributesInfo) (sets : List ParticleSet)
    (mem : Memory) (T : AttributeType) (index : Nat) (data : List (List Nat))
    (hT : info.type_of index = some T)
    (hcap : ∀ s ∈ sets, s.in_capacity mem index (size_of_attribute_type T) = true)
    (hofs : ∀ s ∈ sets, s.offsets_fit (size_of_attribute_type T) = true)
    (hnd : (destinations sets).Nodup)
    (hty : ∀ v ∈ data, v.length = size_of_attribute_type T)
    (hset : ∀ s ∈ sets, size_of_attribute_type T * s.size < UINT_RANGE)
    (hcount : (destinations sets).length < UINT_RANGE)
    (hlen : data.length = (ParticleSets.new name info sets).m_size) :
    ∃ mem1, (ParticleSets.new name info sets).set T index data mem = Result.returned mem1 ∧
      ∀ k (hk : k < data.length), ∃ d, (destinations sets)[k]? = some d ∧
        mem1.element d.1 index (size_of_attribute_type T) d.2 = some data[k] := by
  rw [m_size_new name info sets hcount] at hlen
  have hflat := length_flatten_of_width _ data hty
  have hW : ∀ s ∈ sets, Writable mem index (size_of_attribute_type T) s :=
    fun s hs => capacity_writable mem index _ s (hcap s hs) (hofs s hs)
  have hsc := set_elements_eq_scatter name info sets mem T index data.flatten hT hW hset
  obtain ⟨mem1, hm⟩ := writes_defined mem index (size_of_attribute_type T) data.flatten
    (fun k => size_of_attribute_type T * k) sets hW (by
      intro i hi
      have := Nat.mul_le_mul_left (size_of_attribute_type T) (Nat.succ_le_of_lt hi)
      rw [Nat.mul_succ] at this
      rw [hflat, hlen]
      exact this)
  refine ⟨mem1, ?_, ?_⟩
  · have hsz : (data.length == (ParticleSets.new name info sets).m_size) = true := by
      rw [m_size_new name info sets hcount, hlen]
      exact beq_self_eq_true _
    unfold ParticleSets.set
    rw [hsz]
    have hT1 : (ParticleSets.new name info sets).m_attributes_info.type_of index = some T := hT
    simp only [BLI_assert, if_true, hT1, beq_self_eq_true, ArrayRef.begin, hsc, hm,
      Result.of_body]
  · intro k hk
    have hk1 : k < (destinations sets).length := by omega
    refine ⟨(destinations sets)[k], List.getElem?_eq_getElem hk1, ?_⟩
    have hd := List.getElem?_eq_getElem hk1
    rw [scatter_element_at index _ data.flatten _ (destinations sets) mem mem1 hm k _ hd
      (not_mem_drop_of_nodup _ k _ hd hnd)]
    exact read_bytes_flatten _ data hty k _ (List.getElem?_eq_getElem hk)

/-- C1 at four destinations in two blocks, writing four integers. -/
theorem set_round_trip_witness :
    ∃ mem1, (ParticleSets.new "particles" example_info example_sets).set .Integer 1
        [[1, 0, 0, 0], [2, 0, 0, 0], [3, 0, 0, 0], [4, 0, 0, 0]] example_storage =
        Result.returned mem1 ∧
      ∀ k (hk : k < [[1, 0, 0, 0], [2, 0, 0, 0], [3, 0, 0, 0], [4, 0, 0, 0]].length),
        ∃ d, (destinations example_sets)[k]? = some d ∧
          mem1.element d.1 1 (size_of_attribute_type .Integer) d.2 =
            some [[1, 0, 0, 0], [2, 0, 0, 0], [3, 0, 0, 0], [4, 0, 0, 0]][k] :=
  set_round_trip "particles" example_info example_sets example_storage .Integer 1
    [[1, 0, 0, 0], [2, 0, 0, 0], [3, 0, 0, 0], [4, 0, 0, 0]]
    (by decide) (by decide) (by decide) (by decide) (by decide) (by decide) (by decide)
    (by decide)

theorem fill_elements_eq_scatter (name : String) (info : AttributesInfo)
    (sets : List ParticleSet) (mem : Memory) (T : AttributeType) (index : Nat)
    (value : List Nat) (hT : info.type_of index = some T)
    (hW : ∀ s ∈ sets, Writable mem index (size_of_attribute_type T) s) :
    (ParticleSets.new name info sets).fill_elements index value mem =
      scatter index (size_of_attribute_type T) value
        (writes_from (fun _ => 0) (destinations sets) 0) mem := by
  unfold ParticleSets.fill_elements
  simp only [ParticleSets.new, hT]
  exact fill_elements_outer_eq index (size_of_attribute_type T) value sets mem 0
    (size_of_attribute_type_pos T) hW

theorem set_repeated_elements_eq_scatter_mod (name : String) (info : AttributesInfo)
    (sets : List ParticleSet) (mem : Memory) (T : AttributeType) (index : Nat)
    (data : List Nat) (n : Nat) (dv : List Nat) (hT : info.type_of index = some T)
    (hW : ∀ s ∈ sets, Writable mem index (size_of_attribute_type T) s)
    (hn : 0 < n) (hnU : n < UINT_RANGE) :
    (ParticleSets.new name info sets).set_repeated_elements index data n dv mem =
      scatter index (size_of_attribute_type T) data
        (writes_from (fun k => (size_of_attribute_type T * (k % n)) % UINT_RANGE)
          (destinations sets) 0) mem := by
  unfold ParticleSets.set_repeated_elements
  rw [if_neg (by omega)]
  simp only [ParticleSets.new, hT]
  have := set_repeated_elements_outer_eq index (size_of_attribute_type T) data n sets 0 mem
    (size_of_attribute_type_pos T) hn hnU hW
  rw [Nat.zero_mod] at this
  exact this

theorem set_repeated_elements_eq_scatter (name : String) (info : AttributesInfo)
    (sets : List ParticleSet) (mem : Memory) (T : AttributeType) (index : Nat)
    (data : List Nat) (n : Nat) (dv : List Nat) (hT : info.type_of index = some T)
    (hW : ∀ s ∈ sets, Writable mem index (size_of_attribute_type T) s)
    (hn : 0 < n) (hnU : n < UINT_RANGE)
    (hlast : size_of_attribute_type T * (n - 1) < UINT_RANGE) :
    (ParticleSets.new name info sets).set_repeated_elements index data n dv mem =
      scatter index (size_of_attribute_type T) data
        (writes_from (fun k => size_of_attribute_type T * (k % n)) (destinations sets) 0)
        mem := by
  rw [set_repeated_elements_eq_scatter_mod name info sets mem T index data n dv hT hW hn hnU]
  congr 1
  apply writes_from_congr
  intro i _
  apply Nat.mod_eq_of_lt
  have hlt := Nat.mod_lt (0 + i) hn
  have := Nat.mul_le_mul_left (size_of_attribute_type T) (Nat.le_sub_one_of_lt hlt)
  omega

theorem read_bytes_all (value : List Nat) (es : Nat) (h : value.length = es) :
    read_bytes value 0 es = some value := by
  unfold read_bytes
  rw [if_pos (by omega), List.drop_zero, List.take_of_length_le (by omega)]

theorem default_value_of_type (info : AttributesInfo) (index : Nat) (T : AttributeType)
    (hT : info.type_of index = some T) : ∃ dv, info.default_value_ptr index = some dv := by
  unfold AttributesInfo.type_of at hT
  unfold AttributesInfo.default_value_ptr
  cases h : info.attributes[index]? with
  | none => simp [h] at hT
  | some d => exact ⟨d.default_value, rfl⟩

theorem fill_elements_post (name : String) (info : AttributesInfo) (sets : List ParticleSet)
    (mem : Memory) (T : AttributeType) (index : Nat) (value : List Nat)
    (hT : info.type_of index = some T)
    (hW : ∀ s ∈ sets, Writable mem index (size_of_attribute_type T) s)
    (hv : value.length = size_of_attribute_type T) :
    ∃ mem1, (ParticleSets.new name info sets).fill_elements index value mem = some mem1 ∧
      ∀ s ∈ sets, ∀ p ∈ s.pindices,
        mem1.element s.block index (size_of_attribute_type T) p = some value := by
  obtain ⟨mem1, hm⟩ := writes_defined mem index (size_of_attribute_type T) value
    (fun _ => 0) sets hW (by intro i _; show 0 + _ ≤ _; omega)
  refine ⟨mem1, ?_, ?_⟩
  · rw [fill_elements_eq_scatter name info sets mem T index value hT hW, hm]
  · intro s hs p hp
    have hin : (s.block, p) ∈ destinations sets :=
      (mem_destinations sets s.block p).mpr ⟨s, hs, rfl, hp⟩
    obtain ⟨k, hk, hlast⟩ := exists_last_occurrence _ _ hin
    have := scatter_element_at index _ value _ (destinations sets) mem mem1 hm k _ hk hlast
    simp only [] at this
    rw [this]
    exact read_bytes_all value _ hv

/-- C2, with the `uint` ranges of the code made explicit.  Cyclic broadcast of
`set_repeated`: with pairwise distinct destinations whose pindices are below the
block capacity, every selected slot at a byte offset below `UINT_RANGE`, an
attribute of type `T`, and a non-empty sequence of `n` values of `sizeof(T)`
bytes in which every value starts at a byte offset below `UINT_RANGE` (`n`
itself being a `uint` value), `set_repeated` returns and the `k`-th destination
in set-then-pindex order, counted across all sets, holds `data[k mod n]` (an
index below `n`). -/
theorem set_repeated_cyclic (name : String) (info : AttributesInfo) (sets : List ParticleSet)
    (mem : Memory) (T : AttributeType) (index : Nat) (data : List (List Nat))
    (hT : info.type_of index = some T)
    (hcap : ∀ s ∈ sets, s.in_capacity mem index (size_of_attribute_type T) = true)
    (hofs : ∀ s ∈ sets, s.offsets_fit (size_of_attribute_type T) = true)
    (hnd : (destinations sets).Nodup)
    (hty : ∀ v ∈ data, v.length = size_of_attribute_type T)
    (hne : data ≠ [])
    (hsize : data.length < UINT_RANGE)
    (hlast : size_of_attribute_type T * (data.length - 1) < UINT_RANGE) :
    ∃ mem1,
      (ParticleSets.new name info sets).set_repeated T index data mem =
        Result.returned mem1 ∧
      ∀ k d, (destinations sets)[k]? = some d →
        k % data.length < data.length ∧
        mem1.element d.1 index (size_of_attribute_type T) d.2 = data[k % data.length]? := by
  have hn : 0 < data.length := List.length_pos.mpr hne
  have hflat := length_flatten_of_width _ data hty
  have hW : ∀ s ∈ sets, Writable mem index (size_of_attribute_type T) s :=
    fun s hs => capacity_writable mem index _ s (hcap s hs) (hofs s hs)
  obtain ⟨dv, hdv⟩ := default_value_of_type info index T hT
  have hsc := set_repeated_elements_eq_scatter name info sets mem T index data.flatten
    data.length dv hT hW hn hsize hlast
  obtain ⟨mem1, hm⟩ := writes_defined mem index (size_of_attribute_type T) data.flatten
    (fun k => size_of_attribute_type T * (k % data.length)) sets hW (by
      intro i _
      have := Nat.mul_le_mul_left (size_of_attribute_type T)
        (Nat.succ_le_of_lt (Nat.mod_lt i hn))
      rw [Nat.mul_succ] at this
      rw [hflat]
      exact this)
  refine ⟨mem1, ?_, ?_⟩
  · unfold ParticleSets.set_repeated
    have hT1 : (ParticleSets.new name info sets).m_attributes_info.type_of index = some T := hT
    have hdv1 : (ParticleSets.new name info sets).m_attributes_info.default_value_ptr index =
        some dv := hdv
    simp only [BLI_assert, if_true, hT1, hdv1, beq_self_eq_true, ArrayRef.begin, hsc, hm,
      Result.of_body]
  · intro k d hd
    refine ⟨Nat.mod_lt k hn, ?_⟩
    rw [scatter_element_at index _ data.flatten _ (destinations sets) mem mem1 hm k _ hd
      (not_mem_drop_of_nodup _ k _ hd hnd)]
    have hlt := Nat.mod_lt k hn
    rw [List.getElem?_eq_getElem hlt]
    exact read_bytes_flatten _ data hty (k % data.length) _ (List.getElem?_eq_getElem hlt)

/-- C2 at the values `[A, B]` and five destinations in sets of sizes 3 and 2:
the destinations hold `A, B, A, B, A`; the offset is not reset between the
sets. -/
theorem set_repeated_cyclic_witness :
    ∃ mem1,
      (ParticleSets.new "particles" example_info example_sets5).set_repeated .Integer 1
        [[1, 0, 0, 0], [2, 0, 0, 0]] example_storage = Result.returned mem1 ∧
      mem1.element 0 1 4 0 = some [1, 0, 0, 0] ∧ mem1.element 0 1 4 2 = some [2, 0, 0, 0] ∧
      mem1.element 0 1 4 3 = some [1, 0, 0, 0] ∧ mem1.element 1 1 4 1 = some [2, 0, 0, 0] ∧
      mem1.element 1 1 4 2 = some [1, 0, 0, 0] := by
  obtain ⟨mem1, h1, h2⟩ := set_repeated_cyclic "particles" example_info example_sets5
    example_storage .Integer 1 [[1, 0, 0, 0], [2, 0, 0, 0]]
    (by decide) (by decide) (by decide) (by decide) (by decide) (by decide) (by decide)
    (by decide)
  exact ⟨mem1, h1, (h2 0 (0, 0) rfl).2, (h2 1 (0, 2) rfl).2, (h2 2 (0, 3) rfl).2,
    (h2 3 (1, 1) rfl).2, (h2 4 (1, 2) rfl).2⟩

/-- C4, with the `uint` range of the code made explicit.  Postcondition of the
typed fills: when the pindices are below the block capacity, every selected slot
starts at a byte offset below `UINT_RANGE` and the attribute has type `T`, the
entry point for `T` returns and every destination `(block, pindex)` of every set
holds exactly the bytes of `value` in the attribute column; destinations may
repeat and lie in several blocks. -/
theorem fill_postcondition (name : String) (info : AttributesInfo) (sets : List ParticleSet)
    (mem : Memory) (T : AttributeType) (index : Nat)
    (hT : info.type_of index = some T)
    (hcap : ∀ s ∈ sets, s.in_capacity mem index (size_of_attribute_type T) = true)
    (hofs : ∀ s ∈ sets, s.offsets_fit (size_of_attribute_type T) = true) :
    (T = .Byte → ∀ value : Nat, ∃ mem1,
      (ParticleSets.new name info sets).fill_byte index value mem = Result.returned mem1 ∧
      ∀ s ∈ sets, ∀ p ∈ s.pindices,
        mem1.element s.block index 1 p = some (bytes_of_uint8 value)) ∧
    (T = .Integer → ∀ value : Int, ∃ mem1,
      (ParticleSets.new name info sets).fill_integer index value mem = Result.returned mem1 ∧
      ∀ s ∈ sets, ∀ p ∈ s.pindices,
        mem1.element s.block index 4 p = some (bytes_of_int32 value)) ∧
    (T = .Float → ∀ value : float, ∃ mem1,
      (ParticleSets.new name info sets).fill_float index value mem = Result.returned mem1 ∧
      ∀ s ∈ sets, ∀ p ∈ s.pindices,
        mem1.element s.block index 4 p = some (bytes_of_float value)) ∧
    (T = .Float3 → ∀ value : float3, ∃ mem1,
      (ParticleSets.new name info sets).fill_float3 index value mem = Result.returned mem1 ∧
      ∀ s ∈ sets, ∀ p ∈ s.pindices,
        mem1.element s.block index 12 p = some (bytes_of_float3 value)) := by
  have hW : ∀ s ∈ sets, Writable mem index (size_of_attribute_type T) s :=
    fun s hs => capacity_writable mem index _ s (hcap s hs) (hofs s hs)
  refine ⟨?_, ?_, ?_, ?_⟩
  · rintro rfl value
    obtain ⟨mem1, hm, hpost⟩ := fill_elements_post name info sets mem _ index
      (bytes_of_uint8 value) hT hW rfl
    exact ⟨mem1, by unfold ParticleSets.fill_byte; rw [hm]; rfl, hpost⟩
  · rintro rfl value
    obtain ⟨mem1, hm, hpost⟩ := fill_elements_post name info sets mem _ index
      (bytes_of_int32 value) hT hW rfl
    exact ⟨mem1, by unfold ParticleSets.fill_integer; rw [hm]; rfl, hpost⟩
  · rintro rfl value
    obtain ⟨mem1, hm, hpost⟩ := fill_elements_post name info sets mem _ index
      (bytes_of_float value) hT hW rfl
    exact ⟨mem1, by unfold ParticleSets.fill_float; rw [hm]; rfl, hpost⟩
  · rintro rfl value
    obtain ⟨mem1, hm, hpost⟩ := fill_elements_post name info sets mem _ index
      (bytes_of_float3 value) hT hW rfl
    exact ⟨mem1, by unfold ParticleSets.fill_float3; rw [hm]; rfl, hpost⟩

/-- C4 at `fill_integer(1, 7)` over two blocks with sets of sizes 3 and 4: all
seven destinations hold the 4-byte pattern of 7. -/
theorem fill_postcondition_witness :
    bytes_of_int32 7 = [7, 0, 0, 0] ∧ (destinations example_sets7).length = 7 ∧
    ∃ mem1,
      (ParticleSets.new "particles" example_info example_sets7).fill_integer 1 7
        example_storage = Result.returned mem1 ∧
      ∀ s ∈ example_sets7, ∀ p ∈ s.pindices,
        mem1.element s.block 1 4 p = some (bytes_of_int32 7) :=
  ⟨by decide, by decide,
    (fill_postcondition "particles" example_info example_sets7 example_storage .Integer 1
      (by decide) (by decide) (by decide)).2.1 rfl 7⟩

/-! ## Frame -/

theorem set_elements_inner_scatter (es b index : Nat) (data : List Nat) (rem : Nat)
    (pindices : List Nat) (i : Nat) (hU : ∀ p ∈ pindices, es * p < UINT_RANGE) :
    ∃ ws : List Write, (∀ w ∈ ws, w.block = b ∧ w.pindex ∈ pindices) ∧
      ∀ mem, set_elements_inner es ⟨b, index, 0⟩ data rem pindices i mem =
        scatter index es data ws mem := by
  induction pindices generalizing i with
  | nil => exact ⟨[], by simp, fun _ => rfl⟩
  | cons p rest ih =>
    obtain ⟨ws, hws, heq⟩ := ih (i + 1) (fun q hq => hU q (List.mem_cons_of_mem _ hq))
    refine ⟨⟨b, p, rem + (es * i) % UINT_RANGE⟩ :: ws, ?_, ?_⟩
    · intro w hw
      rcases List.mem_cons.mp hw with h | h
      · subst h
        exact ⟨rfl, List.mem_cons_self _ _⟩
      · exact ⟨(hws w h).1, List.mem_cons_of_mem _ (hws w h).2⟩
    · intro mem
      simp only [set_elements_inner, scatter, POINTER_OFFSET,
        Nat.mod_eq_of_lt (hU p (List.mem_cons_self _ _)), Nat.zero_add]
      cases hm : memcpy mem ⟨b, index, es * p⟩ data (rem + (es * i) % UINT_RANGE) es with
      | none => rfl
      | some mem1 => exact heq mem1

theorem set_elements_outer_scatter (index es : Nat) (data : List Nat)
    (sets : List ParticleSet) (rem : Nat) (mem : Memory) (hes : 0 < es)
    (hW : ∀ s ∈ sets, Writable mem index es s) :
    ∃ ws : List Write, (∀ w ∈ ws, (w.block, w.pindex) ∈ destinations sets) ∧
      set_elements_outer index es data sets rem mem = scatter index es data ws mem := by
  induction sets generalizing mem rem with
  | nil => exact ⟨[], by simp, rfl⟩
  | cons s rest ih =>
    have hs := hW s (List.mem_cons_self _ _)
    obtain ⟨ws1, hws1, heq1⟩ := set_elements_inner_scatter es s.block index data rem
      s.pindices 0 (fun p hp => hs.offset_lt mem index es s hes p hp)
    have hin1 : ∀ w ∈ ws1, (w.block, w.pindex) ∈ destinations (s :: rest) := by
      intro w hw
      exact (mem_destinations _ _ _).mpr
        ⟨s, List.mem_cons_self _ _, (hws1 w hw).1.symm, (hws1 w hw).2⟩
    simp only [set_elements_outer, hs.get_ptr, heq1]
    cases hm : scatter index es data ws1 mem with
    | none => exact ⟨ws1, hin1, hm.symm⟩
    | some mem1 =>
      obtain ⟨ws2, hws2, heq2⟩ := ih (rem + (s.size * es) % UINT_RANGE) mem1
        (fun s1 hs1 => Writable.of_column_length mem mem1 index es s1
          (scatter_column_length index es data _ mem mem1 hm)
          (hW s1 (List.mem_cons_of_mem _ hs1)))
      refine ⟨ws1 ++ ws2, ?_, ?_⟩
      · intro w hw
        rcases List.mem_append.mp hw with h | h
        · exact hin1 w h
        · have := hws2 w h
          simp only [destinations, List.mem_append]
          exact Or.inr this
      · simp only [heq2, scatter_append, hm, Option.some_bind]

theorem set_repeated_elements_inner_scatter (es b index : Nat) (data : List Nat) (n : Nat)
    (pindices : List Nat) (offset : Nat) (hU : ∀ p ∈ pindices, es * p < UINT_RANGE) :
    ∃ (ws : List Write) (offset1 : Nat), (∀ w ∈ ws, w.block = b ∧ w.pindex ∈ pindices) ∧
      ∀ mem, set_repeated_elements_inner es ⟨b, index, 0⟩ data n pindices offset mem =
        (scatter index es data ws mem).map fun m => (m, offset1) := by
  induction pindices generalizing offset with
  | nil => exact ⟨[], offset, by simp, fun _ => rfl⟩
  | cons p rest ih =>
    obtain ⟨ws, o1, hws, heq⟩ := ih
      (if (offset + 1) % UINT_RANGE = n then 0 else (offset + 1) % UINT_RANGE)
      (fun q hq => hU q (List.mem_cons_of_mem _ hq))
    refine ⟨⟨b, p, (es * offset) % UINT_RANGE⟩ :: ws, o1, ?_, ?_⟩
    · intro w hw
      rcases List.mem_cons.mp hw with h | h
      · subst h
        exact ⟨rfl, List.mem_cons_self _ _⟩
      · exact ⟨(hws w h).1, List.mem_cons_of_mem _ (hws w h).2⟩
    · intro mem
      simp only [set_repeated_elements_inner, scatter, POINTER_OFFSET,
        Nat.mod_eq_of_lt (hU p (List.mem_cons_self _ _)), Nat.zero_add]
      cases hm : memcpy mem ⟨b, index, es * p⟩ data ((es * offset) % UINT_RANGE) es with
      | none => rfl
      | some mem1 => exact heq mem1

theorem set_repeated_elements_outer_scatter (index es : Nat) (data : List Nat) (n : Nat)
    (sets : List ParticleSet) (offset : Nat) (mem : Memory) (hes : 0 < es)
    (hW : ∀ s ∈ sets, Writable mem index es s) :
    ∃ ws : List Write, (∀ w ∈ ws, (w.block, w.pindex) ∈ destinations sets) ∧
      set_repeated_elements_outer index es data n sets offset mem =
        scatter index es data ws mem := by
  induction sets generalizing mem offset with
  | nil => exact ⟨[], by simp, rfl⟩
  | cons s rest ih =>
    have hs := hW s (List.mem_cons_self _ _)
    obtain ⟨ws1, o1, hws1, heq1⟩ := set_repeated_elements_inner_scatter es s.block index
      data n s.pindices offset (fun p hp => hs.offset_lt mem index es s hes p hp)
    have hin1 : ∀ w ∈ ws1, (w.block, w.pindex) ∈ destinations (s :: rest) := by
      intro w hw
      exact (mem_destinations _ _ _).mpr
        ⟨s, List.mem_cons_self _ _, (hws1 w hw).1.symm, (hws1 w hw).2⟩
    simp only [set_repeated_elements_outer, hs.get_ptr, heq1]
    cases hm : scatter index es data ws1 mem with
    | none => exact ⟨ws1, hin1, by rw [hm]; rfl⟩
    | some mem1 =>
      obtain ⟨ws2, hws2, heq2⟩ := ih o1 mem1
        (fun s1 hs1 => Writable.of_column_length mem mem1 index es s1
          (scatter_column_length index es data _ mem mem1 hm)
          (hW s1 (List.mem_cons_of_mem _ hs1)))
      refine ⟨ws1 ++ ws2, ?_, ?_⟩
      · intro w hw
        rcases List.mem_append.mp hw with h | h
        · exact hin1 w h
        · have := hws2 w h
          simp only [destinations, List.mem_append]
          exact Or.inr this
      · simp only [Option.map_some', heq2, scatter_append, hm, Option.some_bind]

theorem scatter_frame (index es : Nat) (src : List Nat) (ws : List Write)
    (sets : List ParticleSet) (mem mem1 : Memory)
    (hin : ∀ w ∈ ws, (w.block, w.pindex) ∈ destinations sets)
    (h : scatter index es src ws mem = some mem1) :
    mem1.metadata = mem.metadata ∧
      ∀ b a j,
        ¬ (a = index ∧ ∃ s ∈ sets, s.block = b ∧
            ∃ p ∈ s.pindices, es * p ≤ j ∧ j < es * p + es) →
        mem1.byte b a j = mem.byte b a j := by
  refine ⟨scatter_metadata index es src ws mem mem1 h, ?_⟩
  intro b a j hfree
  apply scatter_byte_frame index es src ws mem mem1 h
  intro w hw hcov
  apply hfree
  obtain ⟨s, hs, hb, hp⟩ := (mem_destinations sets w.block w.pindex).mp (hin w hw)
  exact ⟨hcov.2.1, s, hs, by rw [hb, hcov.1], w.pindex, hp, hcov.2.2.1, hcov.2.2.2⟩

theorem Result.of_body_returned (body : Option Memory) (mem1 : Memory)
    (h : Result.of_body body = Result.returned mem1) : body = some mem1 := by
  cases body with
  | none => simp [Result.of_body] at h
  | some m =>
    simp only [Result.of_body, Result.returned.injEq] at h
    rw [h]

theorem fill_elements_frame (name : String) (info : AttributesInfo) (sets : List ParticleSet)
    (mem mem1 : Memory) (T : AttributeType) (index : Nat) (value : List Nat)
    (hT : info.type_of index = some T)
    (hW : ∀ s ∈ sets, Writable mem index (size_of_attribute_type T) s)
    (h : (ParticleSets.new name info sets).fill_elements index value mem = some mem1) :
    mem1.metadata = mem.metadata ∧
      ∀ b a j,
        ¬ (a = index ∧ ∃ s ∈ sets, s.block = b ∧ ∃ p ∈ s.pindices,
            size_of_attribute_type T * p ≤ j ∧
              j < size_of_attribute_type T * p + size_of_attribute_type T) →
        mem1.byte b a j = mem.byte b a j := by
  rw [fill_elements_eq_scatter name info sets mem T index value hT hW] at h
  exact scatter_frame index _ value _ sets mem mem1
    (fun w hw => mem_writes_from _ _ 0 w hw) h

theorem set_elements_frame (name : String) (info : AttributesInfo) (sets : List ParticleSet)
    (mem mem1 : Memory) (T : AttributeType) (index : Nat) (data : List Nat)
    (hT : info.type_of index = some T)
    (hW : ∀ s ∈ sets, Writable mem index (size_of_attribute_type T) s)
    (h : (ParticleSets.new name info sets).set_elements index data mem = some mem1) :
    mem1.metadata = mem.metadata ∧
      ∀ b a j,
        ¬ (a = index ∧ ∃ s ∈ sets, s.block = b ∧ ∃ p ∈ s.pindices,
            size_of_attribute_type T * p ≤ j ∧
              j < size_of_attribute_type T * p + size_of_attribute_type T) →
        mem1.byte b a j = mem.byte b a j := by
  unfold ParticleSets.set_elements at h
  simp only [ParticleSets.new, hT] at h
  obtain ⟨ws, hws, heq⟩ := set_elements_outer_scatter index (size_of_attribute_type T) data
    sets 0 mem (size_of_attribute_type_pos T) hW
  rw [heq] at h
  exact scatter_frame index _ data ws sets mem mem1 hws h

theorem set_repeated_elements_frame (name : String) (info : AttributesInfo)
    (sets : List ParticleSet) (mem mem1 : Memory) (T : AttributeType) (index : Nat)
    (data : List Nat) (n : Nat) (dv : List Nat) (hT : info.type_of index = some T)
    (hW : ∀ s ∈ sets, Writable mem index (size_of_attribute_type T) s)
    (h : (ParticleSets.new name info sets).set_repeated_elements index data n dv mem =
      some mem1) :
    mem1.metadata = mem.metadata ∧
      ∀ b a j,
        ¬ (a = index ∧ ∃ s ∈ sets, s.block = b ∧ ∃ p ∈ s.pindices,
            size_of_attribute_type T * p ≤ j ∧
              j < size_of_attribute_type T * p + size_of_attribute_type T) →
        mem1.byte b a j = mem.byte b a j := by
  unfold ParticleSets.set_repeated_elements at h
  by_cases hn : n = 0
  · rw [if_pos hn] at h
    exact fill_elements_frame name info sets mem mem1 T index dv hT hW h
  · rw [if_neg hn] at h
    simp only [ParticleSets.new, hT] at h
    obtain ⟨ws, hws, heq⟩ := set_repeated_elements_outer_scatter index
      (size_of_attribute_type T) data n sets 0 mem (size_of_attribute_type_pos T) hW
    rw [heq] at h
    exact scatter_frame index _ data ws sets mem mem1 hws h

theorem BLI_assert_returned (cond : Bool) (mem mem1 : Memory) (k : Result)
    (h : BLI_assert cond mem k = Result.returned mem1) : k = Result.returned mem1 := by
  unfold BLI_assert at h
  cases cond with
  | true => simpa using h
  | false => simp at h

/-- C5, with the `uint` range of the code made explicit.  Frame of the bulk
writes: when the pindices are below the block capacity, every selected slot
starts at a byte offset below `UINT_RANGE`, and a call of `set`, `set_repeated`
or a `fill_*` on attribute `index` returns, the capacity, live count, column
count and column lengths of every block are unchanged, and so is every byte of
storage that is not inside the element of column `index` at a slot listed in
some set: other attributes, slots not selected, and blocks not referenced. -/
theorem bulk_write_frame (name : String) (info : AttributesInfo) (sets : List ParticleSet)
    (mem mem1 : Memory) (T : AttributeType) (index : Nat) (call : BulkWrite)
    (hT : info.type_of index = some T)
    (hcap : ∀ s ∈ sets, s.in_capacity mem index (size_of_attribute_type T) = true)
    (hofs : ∀ s ∈ sets, s.offsets_fit (size_of_attribute_type T) = true)
    (hret : call.run (ParticleSets.new name info sets) index mem = Result.returned mem1) :
    mem1.metadata = mem.metadata ∧
      ∀ b a j,
        ¬ (a = index ∧ ∃ s ∈ sets, s.block = b ∧ ∃ p ∈ s.pindices,
            size_of_attribute_type T * p ≤ j ∧
              j < size_of_attribute_type T * p + size_of_attribute_type T) →
        mem1.byte b a j = mem.byte b a j := by
  have hT1 : (ParticleSets.new name info sets).m_attributes_info.type_of index = some T := hT
  have hW : ∀ s ∈ sets, Writable mem index (size_of_attribute_type T) s :=
    fun s hs => capacity_writable mem index _ s (hcap s hs) (hofs s hs)
  cases call with
  | set T1 data =>
    simp only [BulkWrite.run, ParticleSets.set, hT1] at hret
    have h1 := BLI_assert_returned _ _ _ _ (BLI_assert_returned _ _ _ _ hret)
    exact set_elements_frame name info sets mem mem1 T index _ hT hW
      (Result.of_body_returned _ _ h1)
  | set_repeated T1 data =>
    simp only [BulkWrite.run, ParticleSets.set_repeated, hT1] at hret
    have h1 := BLI_assert_returned _ _ _ _ hret
    cases hdv : (ParticleSets.new name info sets).m_attributes_info.default_value_ptr index with
    | none => simp [hdv] at h1
    | some dv =>
      simp only [hdv] at h1
      exact set_repeated_elements_frame name info sets mem mem1 T index _ _ dv hT hW
        (Result.of_body_returned _ _ h1)
  | fill_byte value =>
    exact fill_elements_frame name info sets mem mem1 T index _ hT hW
      (Result.of_body_returned _ _ hret)
  | fill_integer value =>
    exact fill_elements_frame name info sets mem mem1 T index _ hT hW
      (Result.of_body_returned _ _ hret)
  | fill_float value =>
    exact fill_elements_frame name info sets mem mem1 T index _ hT hW
      (Result.of_body_returned _ _ hret)
  | fill_float3 value =>
    exact fill_elements_frame name info sets mem mem1 T index _ hT hW
      (Result.of_body_returned _ _ hret)

/-- C5 at `fill_integer(1, 7)` over seven destinations in two blocks. -/
theorem bulk_write_frame_witness :
    ∃ mem1,
      (BulkWrite.fill_integer 7).run (ParticleSets.new "particles" example_info example_sets7)
        1 example_storage = Result.returned mem1 ∧
      mem1.metadata = example_storage.metadata ∧
      ∀ b a j,
        ¬ (a = 1 ∧ ∃ s ∈ example_sets7, s.block = b ∧ ∃ p ∈ s.pindices,
            size_of_attribute_type .Integer * p ≤ j ∧
              j < size_of_attribute_type .Integer * p + size_of_attribute_type .Integer) →
        mem1.byte b a j = example_storage.byte b a j := by
  have hcap : ∀ s ∈ example_sets7,
      s.in_capacity example_storage 1 (size_of_attribute_type .Integer) = true := by decide
  have hofs : ∀ s ∈ example_sets7,
      s.offsets_fit (size_of_attribute_type .Integer) = true := by decide
  obtain ⟨mem1, hm, _⟩ := fill_elements_post "particles" example_info example_sets7
    example_storage .Integer 1 (bytes_of_int32 7) (by decide)
    (fun s hs => capacity_writable example_storage 1 _ s (hcap s hs) (hofs s hs)) rfl
  have hret : (BulkWrite.fill_integer 7).run
      (ParticleSets.new "particles" example_info example_sets7) 1 example_storage =
      Result.returned mem1 := by
    simp only [BulkWrite.run, ParticleSets.fill_integer, hm, Result.of_body]
  exact ⟨mem1, hret, bulk_write_frame "particles" example_info example_sets7 example_storage
    mem1 .Integer 1 (BulkWrite.fill_integer 7) (by decide) hcap hofs hret⟩

/-- C6. A size mismatch is rejected before any write: when the number of values
differs from `m_size`, `set` stops at its first assertion and the storage at
that point is the storage the call was given. -/
theorem set_size_mismatch_rejected (ps : ParticleSets) (T : AttributeType) (index : Nat)
    (data : List (List Nat)) (mem : Memory) (hne : data.length ≠ ps.m_size) :
    ps.set T index data mem = Result.aborted Error.assertion_failed mem := by
  unfold ParticleSets.set BLI_assert
  have : (data.length == ps.m_size) = false := by
    simpa using hne
  simp only [this, Bool.false_eq_true, if_false]

/-- C6 at three values for four destinations: the canary storage is kept. -/
theorem set_size_mismatch_rejected_witness :
    (ParticleSets.new "particles" example_info example_sets).m_size = 4 ∧
    (ParticleSets.new "particles" example_info example_sets).set .Integer 1
      [[1, 0, 0, 0], [2, 0, 0, 0], [3, 0, 0, 0]] example_storage =
      Result.aborted Error.assertion_failed example_storage :=
  ⟨by decide,
    set_size_mismatch_rejected (ParticleSets.new "particles" example_info example_sets)
      .Integer 1 [[1, 0, 0, 0], [2, 0, 0, 0], [3, 0, 0, 0]] example_storage (by decide)⟩

/-- C7. The typed fills do not look at the schema type.  On the example schema
attribute 2 is a 1-byte attribute and attribute 1 a 4-byte integer, yet
`fill_integer(2, 7)` returns after writing the first byte of the pattern of 7
to every destination, and `fill_byte(1, 7)` starts copying four bytes out of a
one-byte value, which has no defined result. -/
theorem fill_type_mismatch_not_rejected :
    example_info.type_of 2 = some AttributeType.Byte ∧
    (ParticleSets.new "particles" example_info example_sets).fill_integer 2 7
        example_storage =
      Result.returned
        [{ capacity := 4, active_amount := 4,
           columns := [List.replicate 48 170, List.replicate 16 170, [170, 7, 170, 7]] },
         { capacity := 4, active_amount := 4,
           columns := [List.replicate 48 187, List.replicate 16 187, [7, 187, 7, 187]] }] ∧
    example_info.type_of 1 = some AttributeType.Integer ∧
    (ParticleSets.new "particles" example_info example_sets).fill_byte 1 7 example_storage =
      Result.undefined := by
  decide

theorem BLI_assert_false (mem : Memory) (k : Result) :
    BLI_assert false mem k = Result.aborted Error.assertion_failed mem := rfl

theorem BLI_assert_aborted (cond : Bool) (mem : Memory) (k : Result)
    (hk : k = Result.aborted Error.assertion_failed mem) :
    BLI_assert cond mem k = Result.aborted Error.assertion_failed mem := by
  cases cond with
  | true => exact hk
  | false => rfl

/-- C8. `set` and `set_repeated` check the schema type before writing: when the
declared type `T0` of the attribute differs from the element type `T`, both calls
stop at an assertion, with any value sequence (the empty one included), and the
storage at that point is the storage the call was given. -/
theorem typed_set_checks_type (ps : ParticleSets) (T T0 : AttributeType) (index : Nat)
    (data : List (List Nat)) (mem : Memory)
    (hT : ps.m_attributes_info.type_of index = some T0) (hne : T0 ≠ T) :
    ps.set T index data mem = Result.aborted Error.assertion_failed mem ∧
    ps.set_repeated T index data mem = Result.aborted Error.assertion_failed mem ∧
    ps.set_repeated T index [] mem = Result.aborted Error.assertion_failed mem := by
  have hb : (T0 == T) = false := by simpa using hne
  refine ⟨?_, ?_, ?_⟩
  · unfold ParticleSets.set
    apply BLI_assert_aborted
    simp only [hT, hb]
    rfl
  · unfold ParticleSets.set_repeated
    simp only [hT, hb]
    rfl
  · unfold ParticleSets.set_repeated
    simp only [hT, hb]
    rfl

/-- C8 at float values for the integer attribute of the example schema. -/
theorem typed_set_checks_type_witness :
    (ParticleSets.new "particles" example_info example_sets).set .Float 1
        [[1, 0, 0, 0], [2, 0, 0, 0], [3, 0, 0, 0], [4, 0, 0, 0]] example_storage =
      Result.aborted Error.assertion_failed example_storage ∧
    (ParticleSets.new "particles" example_info example_sets).set_repeated .Float 1
        [[1, 0, 0, 0], [2, 0, 0, 0], [3, 0, 0, 0], [4, 0, 0, 0]] example_storage =
      Result.aborted Error.assertion_failed example_storage ∧
    (ParticleSets.new "particles" example_info example_sets).set_repeated .Float 1 []
        example_storage =
      Result.aborted Error.assertion_failed example_storage :=
  typed_set_checks_type (ParticleSets.new "particles" example_info example_sets) .Float
    .Integer 1 [[1, 0, 0, 0], [2, 0, 0, 0], [3, 0, 0, 0], [4, 0, 0, 0]] example_storage
    (by decide) (by decide)

/-! ## ParticleSet queries -/

/-- C9. `pindices_are_trivial` is the narrow predicate: it is true exactly when
the index list is empty, or its first element is 0 and its last element is
`size() - 1`; for `[5, 6, 7]`, a contiguous run, it is false. -/
theorem pindices_are_trivial_iff :
    (∀ s : ParticleSet, s.pindices_are_trivial = true ↔
      (s.pindices = [] ∨
        (s.pindices.head? = some 0 ∧ s.pindices.getLast? = some (s.size - 1)))) ∧
    ∀ block : Nat, (ParticleSet.mk block [5, 6, 7]).pindices_are_trivial = false := by
  constructor
  · intro s
    unfold ParticleSet.pindices_are_trivial ArrayRef.first ArrayRef.last ParticleSet.size
    rw [List.head?_eq_getElem?, List.getLast?_eq_getElem?]
    cases hp : s.pindices with
    | nil => simp
    | cons x xs => simp
  · intro block
    rfl

theorem ascending_gap (l : List Nat) (hlt : l.Pairwise (· < ·)) (i d : Nat)
    (h : i + d < l.length) : l[i]! + d ≤ l[i + d]! := by
  induction d with
  | zero => simp
  | succ d ih =>
    have h1 : i + d < l.length := by omega
    have := ih h1
    have hstep := (List.pairwise_iff_getElem.mp hlt) (i + d) (i + (d + 1)) h1 h (by omega)
    rw [getElem!_pos l (i + d) h1] at this
    rw [getElem!_pos l (i + (d + 1)) h]
    omega

/-- C10. Under the invariants of `ParticleSet` the cheap test decides identity:
for an index list that is sorted and has no duplicate,
`pindices_are_trivial()` is true exactly when `pindices()[i] == i` for every
`i < size()`. -/
theorem pindices_are_trivial_iff_identity (s : ParticleSet)
    (hsorted : s.pindices.Pairwise (· ≤ ·)) (hnodup : s.pindices.Nodup) :
    s.pindices_are_trivial = true ↔ ∀ i, i < s.size → s.pindices[i]? = some i := by
  have hlt : s.pindices.Pairwise (· < ·) :=
    List.Pairwise.imp₂ (fun a b h1 h2 => Nat.lt_of_le_of_ne h1 h2) hsorted hnodup
  unfold ParticleSet.pindices_are_trivial ArrayRef.first ArrayRef.last ParticleSet.size
  by_cases h0 : s.pindices.length = 0
  · rw [if_pos h0]
    simp only [true_iff]
    intro i hi
    omega
  · rw [if_neg h0]
    have hpos : 0 < s.pindices.length := Nat.pos_of_ne_zero h0
    have hl : s.pindices.length - 1 < s.pindices.length := by omega
    simp only [Bool.and_eq_true, beq_iff_eq]
    constructor
    · rintro ⟨hfirst, hlast⟩ i hi
      rw [List.getElem?_eq_getElem hpos, Option.some.injEq] at hfirst
      rw [List.getElem?_eq_getElem hl, Option.some.injEq] at hlast
      have g1 := ascending_gap s.pindices hlt 0 i (by omega)
      have g2 := ascending_gap s.pindices hlt i (s.pindices.length - 1 - i) (by omega)
      rw [show i + (s.pindices.length - 1 - i) = s.pindices.length - 1 by omega,
        getElem!_pos s.pindices (s.pindices.length - 1) hl, hlast] at g2
      rw [getElem!_pos s.pindices 0 hpos, hfirst, Nat.zero_add,
        getElem!_pos s.pindices i hi] at g1
      rw [getElem!_pos s.pindices i hi] at g2
      rw [List.getElem?_eq_getElem hi]
      congr 1
      omega
    · intro h
      exact ⟨h 0 hpos, h _ hl⟩

/-- C10 at the set `{0, 1, 2, 3}`. -/
theorem pindices_are_trivial_iff_identity_witness :
    (ParticleSet.mk 0 [0, 1, 2, 3]).pindices_are_trivial = true ↔
      ∀ i, i < (ParticleSet.mk 0 [0, 1, 2, 3]).size →
        (ParticleSet.mk 0 [0, 1, 2, 3]).pindices[i]? = some i :=
  pindices_are_trivial_iff_identity ⟨0, [0, 1, 2, 3]⟩ (by decide) (by decide)

/-- C11. `trivial_pindices`: when `pindices_are_trivial()` is false the call
stops at its assertion; on an empty set it returns `[0, 0)`; on a trivial
non-empty set it returns `[first, (last + 1) mod 2^32)`, which is
`[first, last + 1)` and `[0, size())` when the size is a `uint` value; and
`{0, 1, 2}` gives `[0, 3)`. -/
theorem trivial_pindices_spec :
    (∀ s : ParticleSet, s.pindices_are_trivial = false →
      s.trivial_pindices = Outcome.aborted Error.assertion_failed) ∧
    (∀ s : ParticleSet, s.pindices = [] → s.trivial_pindices = Outcome.returned ⟨0, 0⟩) ∧
    (∀ s : ParticleSet, s.pindices_are_trivial = true → s.pindices ≠ [] →
      ∃ first last, s.pindices.head? = some first ∧ s.pindices.getLast? = some last ∧
        s.trivial_pindices = Outcome.returned ⟨first, (last + 1) % UINT_RANGE⟩ ∧
        (s.size < UINT_RANGE →
          s.trivial_pindices = Outcome.returned ⟨first, last + 1⟩ ∧
          s.trivial_pindices = Outcome.returned ⟨0, s.size⟩)) ∧
    (∀ block : Nat,
      (ParticleSet.mk block [0, 1, 2]).trivial_pindices = Outcome.returned ⟨0, 3⟩) := by
  refine ⟨?_, ?_, ?_, ?_⟩
  · intro s h
    unfold ParticleSet.trivial_pindices BLI_assert_value
    rw [h]
    rfl
  · intro s h
    unfold ParticleSet.trivial_pindices BLI_assert_value ParticleSet.pindices_are_trivial
    simp [h]
  · intro s htriv hne
    have hlen : s.pindices.length ≠ 0 := fun h => hne (List.length_eq_zero.mp h)
    have hpos : 0 < s.pindices.length := Nat.pos_of_ne_zero hlen
    have hl : s.pindices.length - 1 < s.pindices.length := by omega
    have ht := htriv
    unfold ParticleSet.pindices_are_trivial at ht
    rw [if_neg hlen] at ht
    simp only [Bool.and_eq_true, beq_iff_eq] at ht
    obtain ⟨hfirst, hlast⟩ := ht
    have hres : s.trivial_pindices =
        Outcome.returned ⟨0, (s.pindices.length - 1 + 1) % UINT_RANGE⟩ := by
      unfold ParticleSet.trivial_pindices BLI_assert_value
      rw [htriv, if_pos rfl, if_neg hlen, hfirst, hlast]
    refine ⟨0, s.pindices.length - 1, ?_, ?_, hres, ?_⟩
    · rw [List.head?_eq_getElem?]
      exact hfirst
    · rw [List.getLast?_eq_getElem?]
      exact hlast
    · intro hsz
      unfold ParticleSet.size at hsz ⊢
      have e : s.pindices.length - 1 + 1 = s.pindices.length := by omega
      rw [hres, e, Nat.mod_eq_of_lt hsz]
      exact ⟨rfl, rfl⟩
  · intro block
    rfl

theorem foldl_size_mod (sets : List ParticleSet) (acc : Nat) (hacc : acc < UINT_RANGE) :
    sets.foldl (fun m_size set => (m_size + set.size) % UINT_RANGE) acc =
      (acc + (sets.map ParticleSet.size).sum) % UINT_RANGE := by
  induction sets generalizing acc with
  | nil =>
    simp only [List.foldl_nil, List.map_nil, List.sum_nil, Nat.add_zero]
    exact (Nat.mod_eq_of_lt hacc).symm
  | cons s rest ih =>
    simp only [List.foldl_cons, List.map_cons, List.sum_cons]
    rw [ih _ (Nat.mod_lt _ (by decide)), Nat.mod_add_mod, Nat.add_assoc]

/-- C12. The stored total size is the sum of the set sizes, taken as a `uint`
sum, and it is the same for every permutation of the sets. -/
theorem total_size_is_sum (name : String) (info : AttributesInfo)
    (sets sets1 : List ParticleSet) (hperm : sets1.Perm sets) :
    (ParticleSets.new name info sets).m_size =
      (sets.map ParticleSet.size).sum % UINT_RANGE ∧
    (ParticleSets.new name info sets1).m_size = (ParticleSets.new name info sets).m_size := by
  have h : ∀ l : List ParticleSet, (ParticleSets.new name info l).m_size =
      (l.map ParticleSet.size).sum % UINT_RANGE := by
    intro l
    unfold ParticleSets.new
    simp only []
    rw [foldl_size_mod l 0 (by decide), Nat.zero_add]
  refine ⟨h sets, ?_⟩
  rw [h sets1, h sets, (hperm.map ParticleSet.size).sum_eq]

/-- C12 at three sets of sizes 3, 0 and 2 and a rotation of them. -/
theorem total_size_is_sum_witness :
    (ParticleSets.new "particles" example_info
        [⟨0, [0, 2, 3]⟩, ⟨1, []⟩, ⟨1, [1, 2]⟩]).m_size = 5 % UINT_RANGE ∧
    (ParticleSets.new "particles" example_info
        [⟨1, [1, 2]⟩, ⟨0, [0, 2, 3]⟩, ⟨1, []⟩]).m_size =
      (ParticleSets.new "particles" example_info
        [⟨0, [0, 2, 3]⟩, ⟨1, []⟩, ⟨1, [1, 2]⟩]).m_size :=
  total_size_is_sum "particles" example_info [⟨0, [0, 2, 3]⟩, ⟨1, []⟩, ⟨1, [1, 2]⟩]
    [⟨1, [1, 2]⟩, ⟨0, [0, 2, 3]⟩, ⟨1, []⟩] (by decide)

theorem attribute_index_unknown (info : AttributesInfo) (name : String)
    (hname : ∀ d ∈ info.attributes, d.name ≠ name) : info.attribute_index name = none := by
  unfold AttributesInfo.attribute_index
  have hnot : name ∉ info.attributes.map fun d => d.name := by
    intro hmem
    obtain ⟨d, hd, he⟩ := List.mem_map.mp hmem
    exact hname d hd he
  have hidx := List.indexOf_eq_length.mpr hnot
  rw [List.length_map] at hidx
  rw [if_neg (by omega)]

/-- C13. Unknown attribute names are reported by every entry point that takes a
name: when no descriptor of the schema has the name, `set`, `set_repeated`,
`fill_byte`, `fill_integer`, `fill_float` and `fill_float3` by name all stop
with a lookup failure and the storage they were given. -/
theorem unknown_name_reported (ps : ParticleSets) (name : String) (T : AttributeType)
    (data : List (List Nat)) (b : Nat) (i : Int) (f : float) (f3 : float3) (mem : Memory)
    (hname : ∀ d ∈ ps.m_attributes_info.attributes, d.name ≠ name) :
    ps.set_by_name T name data mem = Result.aborted Error.lookup_failed mem ∧
    ps.set_repeated_by_name T name data mem = Result.aborted Error.lookup_failed mem ∧
    ps.fill_byte_by_name name b mem = Result.aborted Error.lookup_failed mem ∧
    ps.fill_integer_by_name name i mem = Result.aborted Error.lookup_failed mem ∧
    ps.fill_float_by_name name f mem = Result.aborted Error.lookup_failed mem ∧
    ps.fill_float3_by_name name f3 mem = Result.aborted Error.lookup_failed mem := by
  have h := attribute_index_unknown ps.m_attributes_info name hname
  refine ⟨?_, ?_, ?_, ?_, ?_, ?_⟩
  · unfold ParticleSets.set_by_name
    rw [h]
  · unfold ParticleSets.set_repeated_by_name
    rw [h]
  · unfold ParticleSets.fill_byte_by_name
    rw [h]
  · unfold ParticleSets.fill_integer_by_name
    rw [h]
  · unfold ParticleSets.fill_float_by_name
    rw [h]
  · unfold ParticleSets.fill_float3_by_name
    rw [h]

/-- C13 at the name `Velocity`, which the example schema does not have. -/
theorem unknown_name_reported_witness :
    (ParticleSets.new "particles" example_info example_sets).set_by_name .Float3 "Velocity"
        [] example_storage = Result.aborted Error.lookup_failed example_storage ∧
    (ParticleSets.new "particles" example_info example_sets).set_repeated_by_name .Float3
        "Velocity" [] example_storage = Result.aborted Error.lookup_failed example_storage ∧
    (ParticleSets.new "particles" example_info example_sets).fill_byte_by_name "Velocity" 1
        example_storage = Result.aborted Error.lookup_failed example_storage ∧
    (ParticleSets.new "particles" example_info example_sets).fill_integer_by_name "Velocity" 7
        example_storage = Result.aborted Error.lookup_failed example_storage ∧
    (ParticleSets.new "particles" example_info example_sets).fill_float_by_name "Velocity"
        ⟨0⟩ example_storage = Result.aborted Error.lookup_failed example_storage ∧
    (ParticleSets.new "particles" example_info example_sets).fill_float3_by_name "Velocity"
        ⟨⟨0⟩, ⟨0⟩, ⟨0⟩⟩ example_storage =
      Result.aborted Error.lookup_failed example_storage :=
  unknown_name_reported (ParticleSets.new "particles" example_info example_sets) "Velocity"
    .Float3 [] 1 7 ⟨0⟩ ⟨⟨0⟩, ⟨0⟩, ⟨0⟩⟩ example_storage (by decide)

/-- C14, as the code has it: the constructor checks nothing.  For every block
and every index list, sorted or not, with or without a duplicate, construction
yields the `ParticleSet` that holds exactly that block and that list. -/
theorem constructor_stores_any_list (block : Nat) (pindices : List Nat) :
    ∃ s, ParticleSet.new block pindices = Outcome.returned s ∧ s.block = block ∧
      s.pindices = pindices ∧ s.size = pindices.length :=
  ⟨⟨block, pindices⟩, rfl, rfl, rfl, rfl⟩

/-- C14 fails at `[0, 5, 2]`, which is not sorted, and at `[0, 0, 2]`, which has
a duplicate: both constructions yield a `ParticleSet`. -/
theorem constructor_accepts_invalid_list :
    ¬ [0, 5, 2].Pairwise (· ≤ ·) ∧
    ParticleSet.new 0 [0, 5, 2] = Outcome.returned ⟨0, [0, 5, 2]⟩ ∧
    ¬ [0, 0, 2].Nodup ∧
    ParticleSet.new 0 [0, 0, 2] = Outcome.returned ⟨0, [0, 0, 2]⟩ :=
  ⟨by decide, rfl, by decide, rfl⟩

/-- C19. The triviality test depends on the sorted-unique invariant: for the
lists `[0, 5, 2]` and `[0, 0, 2]`, which violate it, `pindices_are_trivial()` is
true although `pindices()[1]` is not 1, and `trivial_pindices()` returns
`[0, 3)`, whose members `0, 1, 2` are not the listed indices. -/
theorem trivial_test_needs_invariant :
    ¬ [0, 5, 2].Pairwise (· ≤ ·) ∧
    (ParticleSet.mk 0 [0, 5, 2]).pindices_are_trivial = true ∧
    (ParticleSet.mk 0 [0, 5, 2]).pindices[1]? = some 5 ∧
    (ParticleSet.mk 0 [0, 5, 2]).trivial_pindices = Outcome.returned ⟨0, 3⟩ ∧
    Range.members ⟨0, 3⟩ = [0, 1, 2] ∧ Range.members ⟨0, 3⟩ ≠ [0, 5, 2] ∧
    ¬ [0, 0, 2].Nodup ∧
    (ParticleSet.mk 0 [0, 0, 2]).pindices_are_trivial = true ∧
    (ParticleSet.mk 0 [0, 0, 2]).pindices[1]? = some 0 ∧
    (ParticleSet.mk 0 [0, 0, 2]).trivial_pindices = Outcome.returned ⟨0, 3⟩ ∧
    Range.members ⟨0, 3⟩ ≠ [0, 0, 2] := by
  decide

/-! ## Relations between the bulk writes -/

theorem capacity_slot (mem : Memory) (index es : Nat) (s : ParticleSet)
    (h : s.in_capacity mem index es = true) (p : Nat) (hp : p ∈ s.pindices) :
    ∃ blk col, mem[s.block]? = some blk ∧ blk.columns[index]? = some col ∧
      p < blk.capacity ∧ es * p + es ≤ col.length := by
  unfold ParticleSet.in_capacity at h
  cases hb : mem[s.block]? with
  | none => simp [hb] at h
  | some blk =>
    simp only [hb] at h
    cases hc : blk.columns[index]? with
    | none => simp [hc] at h
    | some col =>
      simp only [hc, Bool.and_eq_true, beq_iff_eq, decide_eq_true_eq, List.all_eq_true] at h
      obtain ⟨h1, h3⟩ := h
      refine ⟨blk, col, rfl, hc, h3 p hp, ?_⟩
      have := Nat.mul_le_mul_left es (Nat.succ_le_of_lt (h3 p hp))
      rw [Nat.mul_succ] at this
      omega

/-- C15, with the `uint` ranges of the code made explicit.  Bounds safety of
`set`: when the pindices are below the block capacity, every selected slot
starts at a byte offset below `UINT_RANGE`, the values of every single set
occupy fewer than `UINT_RANGE` bytes, there are fewer than `UINT_RANGE`
destinations, the values are `sizeof(T)` bytes wide and as many as `m_size`, the
call returns (no access falls outside its buffer or column), and `set_elements`
is a sequence of copies of `sizeof(T)` bytes each of which reads the element at
a position below `m_size` of the value buffer and writes the slot of a pindex
below the capacity of the column of its block. -/
theorem set_bounds_safe (name : String) (info : AttributesInfo) (sets : List ParticleSet)
    (mem : Memory) (T : AttributeType) (index : Nat) (data : List (List Nat))
    (hT : info.type_of index = some T)
    (hcap : ∀ s ∈ sets, s.in_capacity mem index (size_of_attribute_type T) = true)
    (hofs : ∀ s ∈ sets, s.offsets_fit (size_of_attribute_type T) = true)
    (hty : ∀ v ∈ data, v.length = size_of_attribute_type T)
    (hset : ∀ s ∈ sets, size_of_attribute_type T * s.size < UINT_RANGE)
    (hcount : (destinations sets).length < UINT_RANGE)
    (hlen : data.length = (ParticleSets.new name info sets).m_size) :
    (∃ mem1, (ParticleSets.new name info sets).set T index data mem = Result.returned mem1) ∧
    ∃ ws : List Write,
      (ParticleSets.new name info sets).set_elements index (ArrayRef.begin data) mem =
        scatter index (size_of_attribute_type T) (ArrayRef.begin data) ws mem ∧
      ∀ w ∈ ws,
        (∃ k, k < (ParticleSets.new name info sets).m_size ∧
          w.src_offset = size_of_attribute_type T * k ∧
          w.src_offset + size_of_attribute_type T ≤ (ArrayRef.begin data).length) ∧
        (∃ blk col, mem[w.block]? = some blk ∧ blk.columns[index]? = some col ∧
          w.pindex < blk.capacity ∧
          size_of_attribute_type T * w.pindex + size_of_attribute_type T ≤ col.length) := by
  have hsize := m_size_new name info sets hcount
  rw [hsize] at hlen
  have hflat := length_flatten_of_width _ data hty
  have hW : ∀ s ∈ sets, Writable mem index (size_of_attribute_type T) s :=
    fun s hs => capacity_writable mem index _ s (hcap s hs) (hofs s hs)
  have hsc := set_elements_eq_scatter name info sets mem T index data.flatten hT hW hset
  have hsrc : ∀ i, i < (destinations sets).length →
      size_of_attribute_type T * i + size_of_attribute_type T ≤ data.flatten.length := by
    intro i hi
    have := Nat.mul_le_mul_left (size_of_attribute_type T) (Nat.succ_le_of_lt hi)
    rw [Nat.mul_succ] at this
    rw [hflat, hlen]
    exact this
  obtain ⟨mem1, hm⟩ := writes_defined mem index (size_of_attribute_type T) data.flatten
    (fun k => size_of_attribute_type T * k) sets hW hsrc
  constructor
  · refine ⟨mem1, ?_⟩
    have hsz : (data.length == (ParticleSets.new name info sets).m_size) = true := by
      rw [hsize, hlen]
      exact beq_self_eq_true _
    unfold ParticleSets.set
    rw [hsz]
    have hT1 : (ParticleSets.new name info sets).m_attributes_info.type_of index = some T := hT
    simp only [BLI_assert, if_true, hT1, beq_self_eq_true, ArrayRef.begin, hsc, hm,
      Result.of_body]
  · refine ⟨_, hsc, ?_⟩
    intro w hw
    obtain ⟨i, hi, he⟩ := mem_writes_from_offset _ _ 0 w hw
    rw [Nat.zero_add] at he
    obtain ⟨s, hs, hb, hp⟩ := (mem_destinations sets w.block w.pindex).mp
      (mem_writes_from _ _ 0 w hw)
    constructor
    · refine ⟨i, by rw [hsize]; exact hi, he, ?_⟩
      rw [he]
      exact hsrc i hi
    · obtain ⟨blk, col, h1, h2, h3, h4⟩ := capacity_slot mem index _ s (hcap s hs) w.pindex hp
      exact ⟨blk, col, by rw [← hb]; exact h1, h2, h3, h4⟩

/-- C15 at four integers for four destinations in two blocks. -/
theorem set_bounds_safe_witness :
    (∃ mem1, (ParticleSets.new "particles" example_info example_sets).set .Integer 1
        [[1, 0, 0, 0], [2, 0, 0, 0], [3, 0, 0, 0], [4, 0, 0, 0]] example_storage =
        Result.returned mem1) ∧
    ∃ ws : List Write,
      (ParticleSets.new "particles" example_info example_sets).set_elements 1
          (ArrayRef.begin [[1, 0, 0, 0], [2, 0, 0, 0], [3, 0, 0, 0], [4, 0, 0, 0]])
          example_storage =
        scatter 1 (size_of_attribute_type .Integer)
          (ArrayRef.begin [[1, 0, 0, 0], [2, 0, 0, 0], [3, 0, 0, 0], [4, 0, 0, 0]]) ws
          example_storage ∧
      ∀ w ∈ ws,
        (∃ k, k < (ParticleSets.new "particles" example_info example_sets).m_size ∧
          w.src_offset = size_of_attribute_type .Integer * k ∧
          w.src_offset + size_of_attribute_type .Integer ≤
            (ArrayRef.begin [[1, 0, 0, 0], [2, 0, 0, 0], [3, 0, 0, 0], [4, 0, 0, 0]]).length) ∧
        (∃ blk col, example_storage[w.block]? = some blk ∧ blk.columns[1]? = some col ∧
          w.pindex < blk.capacity ∧
          size_of_attribute_type .Integer * w.pindex + size_of_attribute_type .Integer ≤
            col.length) :=
  set_bounds_safe "particles" example_info example_sets example_storage .Integer 1
    [[1, 0, 0, 0], [2, 0, 0, 0], [3, 0, 0, 0], [4, 0, 0, 0]]
    (by decide) (by decide) (by decide) (by decide) (by decide) (by decide) (by decide)

theorem set_repeated_one_inner (es : Nat) (dst : Pointer) (data : List Nat)
    (pindices : List Nat) (mem : Memory) :
    set_repeated_elements_inner es dst data 1 pindices 0 mem =
      (fill_elements_inner es dst data pindices mem).map fun m => (m, 0) := by
  induction pindices generalizing mem with
  | nil => rfl
  | cons p rest ih =>
    have h1 : (0 + 1) % UINT_RANGE = 1 := by decide
    simp only [set_repeated_elements_inner, fill_elements_inner, Nat.mul_zero, Nat.zero_mod,
      h1, if_true]
    cases hm : memcpy mem (POINTER_OFFSET dst ((es * p) % UINT_RANGE)) data 0 es with
    | none => rfl
    | some mem1 => exact ih mem1

theorem set_repeated_one_outer (index es : Nat) (data : List Nat) (sets : List ParticleSet)
    (mem : Memory) :
    set_repeated_elements_outer index es data 1 sets 0 mem =
      fill_elements_outer index es data sets mem := by
  induction sets generalizing mem with
  | nil => rfl
  | cons s rest ih =>
    simp only [set_repeated_elements_outer, fill_elements_outer]
    cases hp : get_ptr mem s.block index with
    | none => rfl
    | some dst =>
      simp only [set_repeated_one_inner]
      cases hm : fill_elements_inner es dst data s.pindices mem with
      | none => rfl
      | some mem1 => exact ih mem1

theorem set_repeated_elements_one (ps : ParticleSets) (index : Nat) (data dv : List Nat)
    (mem : Memory) :
    ps.set_repeated_elements index data 1 dv mem = ps.fill_elements index data mem := by
  unfold ParticleSets.set_repeated_elements ParticleSets.fill_elements
  rw [if_neg (by decide)]
  cases ps.m_attributes_info.type_of index with
  | none => rfl
  | some type => exact set_repeated_one_outer index _ data ps.m_sets mem

/-- C18. A one-element `set_repeated` is a fill: for an attribute of type `T`,
`set_repeated<T>(index, [v])` has the outcome of the generic fill
`fill_elements(index, v)` on the same storage, for every `ParticleSets` and
every storage; with the bytes of a typed value it is the typed fill. -/
theorem set_repeated_one_is_fill (ps : ParticleSets) (T : AttributeType) (index : Nat)
    (v : List Nat) (mem : Memory) (hT : ps.m_attributes_info.type_of index = some T) :
    ps.set_repeated T index [v] mem = Result.of_body (ps.fill_elements index v mem) ∧
    (∀ value : Nat,
      ps.set_repeated T index [bytes_of_uint8 value] mem = ps.fill_byte index value mem) ∧
    (∀ value : Int,
      ps.set_repeated T index [bytes_of_int32 value] mem = ps.fill_integer index value mem) ∧
    (∀ value : float,
      ps.set_repeated T index [bytes_of_float value] mem = ps.fill_float index value mem) ∧
    (∀ value : float3,
      ps.set_repeated T index [bytes_of_float3 value] mem =
        ps.fill_float3 index value mem) := by
  obtain ⟨dv, hdv⟩ := default_value_of_type ps.m_attributes_info index T hT
  have key : ∀ w : List Nat,
      ps.set_repeated T index [w] mem = Result.of_body (ps.fill_elements index w mem) := by
    intro w
    unfold ParticleSets.set_repeated
    simp only [BLI_assert, if_true, hT, hdv, beq_self_eq_true, ArrayRef.begin,
      List.flatten_cons, List.flatten_nil, List.append_nil, List.length_singleton,
      set_repeated_elements_one]
  exact ⟨key v, fun value => key _, fun value => key _, fun value => key _,
    fun value => key _⟩

/-- C18 at the value 7 for the integer attribute of the example schema. -/
theorem set_repeated_one_is_fill_witness :
    (ParticleSets.new "particles" example_info example_sets_overlap).set_repeated .Integer 1
        [[7, 0, 0, 0]] example_storage =
      Result.of_body ((ParticleSets.new "particles" example_info
        example_sets_overlap).fill_elements 1 [7, 0, 0, 0] example_storage) ∧
    (ParticleSets.new "particles" example_info example_sets_overlap).set_repeated .Integer 1
        [bytes_of_int32 7] example_storage =
      (ParticleSets.new "particles" example_info example_sets_overlap).fill_integer 1 7
        example_storage :=
  ⟨(set_repeated_one_is_fill (ParticleSets.new "particles" example_info example_sets_overlap)
      .Integer 1 [7, 0, 0, 0] example_storage (by decide)).1,
    (set_repeated_one_is_fill (ParticleSets.new "particles" example_info example_sets_overlap)
      .Integer 1 [7, 0, 0, 0] example_storage (by decide)).2.2.1 7⟩

/-! ## Order of a fill -/

theorem Memory.ext_bytes (mem1 mem2 : Memory) (hmeta : mem1.metadata = mem2.metadata)
    (hbytes : ∀ b a j, mem1.byte b a j = mem2.byte b a j) : mem1 = mem2 := by
  apply List.ext_getElem?
  intro b
  have hm : (mem1.metadata)[b]? = (mem2.metadata)[b]? := by rw [hmeta]
  unfold Memory.metadata at hm
  simp only [List.getElem?_map] at hm
  cases h1 : mem1[b]? with
  | none =>
    cases h2 : mem2[b]? with
    | none => rfl
    | some blk2 => simp [h1, h2] at hm
  | some blk1 =>
    cases h2 : mem2[b]? with
    | none => simp [h1, h2] at hm
    | some blk2 =>
      simp only [h1, h2, Option.map_some', Option.some.injEq, Prod.mk.injEq] at hm
      obtain ⟨hc, ha, hcols⟩ := hm
      have hcolumns : blk1.columns = blk2.columns := by
        apply List.ext_getElem?
        intro a
        have hl : (blk1.columns.map List.length)[a]? = (blk2.columns.map List.length)[a]? := by
          rw [hcols]
        simp only [List.getElem?_map] at hl
        cases c1 : blk1.columns[a]? with
        | none =>
          cases c2 : blk2.columns[a]? with
          | none => rfl
          | some col2 => simp [c1, c2] at hl
        | some col1 =>
          cases c2 : blk2.columns[a]? with
          | none => simp [c1, c2] at hl
          | some col2 =>
            congr 1
            apply List.ext_getElem?
            intro j
            have := hbytes b a j
            unfold Memory.byte Memory.column at this
            simp only [h1, h2, c1, c2, Option.some_bind] at this
            exact this
      cases blk1
      cases blk2
      simp only [] at hc ha hcolumns
      rw [hc, ha, hcolumns]

theorem scatter_ok_of_defined (index es : Nat) (src : List Nat) (ws : List Write)
    (mem mem1 : Memory) (h : scatter index es src ws mem = some mem1) :
    ∀ w ∈ ws, ∃ L, mem.column_length w.block index = some L ∧
      es * w.pindex + es ≤ L ∧ w.src_offset + es ≤ src.length := by
  induction ws generalizing mem with
  | nil => simp
  | cons w ws ih =>
    simp only [scatter] at h
    cases hm : memcpy mem ⟨w.block, index, es * w.pindex⟩ src w.src_offset es with
    | none => simp [hm] at h
    | some mem2 =>
      simp only [hm] at h
      obtain ⟨col, hc, hs, hd, _⟩ := memcpy_spec mem mem2 _ src _ es hm
      intro w1 hw1
      rcases List.mem_cons.mp hw1 with h1 | h1
      · subst h1
        refine ⟨col.length, ?_, hd, hs⟩
        unfold Memory.column_length
        simp only [] at hc
        rw [hc]
        rfl
      · obtain ⟨L, hL, hd1, hs1⟩ := ih mem2 h w1 h1
        exact ⟨L, by rw [← memcpy_column_length mem mem2 _ src _ es hm]; exact hL, hd1, hs1⟩

theorem offset_in_slot (es p j : Nat) (h1 : es * p ≤ j) (h2 : j < es * p + es) :
    j - es * p = j % es := by
  have hes : 0 < es := by omega
  have hj : j = es * p + (j - es * p) := by omega
  have hlt : j - es * p < es := by omega
  conv_rhs => rw [hj]
  rw [Nat.mul_add_mod, Nat.mod_eq_of_lt hlt]

theorem scatter_fill_byte (index es : Nat) (value : List Nat) (ws : List Write)
    (mem mem1 : Memory) (h : scatter index es value ws mem = some mem1)
    (h0 : ∀ w ∈ ws, w.src_offset = 0) (b j : Nat)
    (hcov : ∃ w ∈ ws, b = w.block ∧ es * w.pindex ≤ j ∧ j < es * w.pindex + es) :
    mem1.byte b index j = value[j % es]? := by
  induction ws generalizing mem with
  | nil =>
    obtain ⟨w, hw, _⟩ := hcov
    simp at hw
  | cons w ws ih =>
    simp only [scatter] at h
    cases hm : memcpy mem ⟨w.block, index, es * w.pindex⟩ value w.src_offset es with
    | none => simp [hm] at h
    | some mem2 =>
      simp only [hm] at h
      by_cases hrest : ∃ w1 ∈ ws, b = w1.block ∧ es * w1.pindex ≤ j ∧ j < es * w1.pindex + es
      · exact ih mem2 h (fun w1 hw1 => h0 w1 (List.mem_cons_of_mem _ hw1)) hrest
      · have hw : b = w.block ∧ es * w.pindex ≤ j ∧ j < es * w.pindex + es := by
          obtain ⟨w1, hw1, hc⟩ := hcov
          rcases List.mem_cons.mp hw1 with e | e
          · subst e
            exact hc
          · exact absurd ⟨w1, e, hc⟩ hrest
        rw [scatter_byte_frame index es value ws mem2 mem1 h b index j
          (fun w1 hw1 hc => hrest ⟨w1, hw1, hc.1, hc.2.2.1, hc.2.2.2⟩),
          memcpy_byte mem mem2 _ value _ es hm]
        simp only []
        rw [if_pos ⟨hw.1, trivial, hw.2.1, hw.2.2⟩, h0 w (List.mem_cons_self _ _), Nat.zero_add,
          offset_in_slot es w.pindex j hw.2.1 hw.2.2]

theorem scatter_fill_congr (index es : Nat) (value : List Nat) (ws1 ws2 : List Write)
    (mem : Memory) (h1 : ∀ w ∈ ws1, w.src_offset = 0) (h2 : ∀ w ∈ ws2, w.src_offset = 0)
    (hsame : ∀ b p, (∃ w ∈ ws1, w.block = b ∧ w.pindex = p) ↔
      (∃ w ∈ ws2, w.block = b ∧ w.pindex = p)) :
    scatter index es value ws1 mem = scatter index es value ws2 mem := by
  have transfer : ∀ (wsa wsb : List Write) (m : Memory),
      (∀ w ∈ wsa, w.src_offset = 0) → (∀ w ∈ wsb, w.src_offset = 0) →
      (∀ b p, (∃ w ∈ wsb, w.block = b ∧ w.pindex = p) →
        (∃ w ∈ wsa, w.block = b ∧ w.pindex = p)) →
      scatter index es value wsa mem = some m →
      ∃ m1, scatter index es value wsb mem = some m1 := by
    intro wsa wsb m ha hb hsub hm
    apply scatter_defined
    intro w hw
    obtain ⟨wa, hwa, hblock, hpindex⟩ := hsub w.block w.pindex ⟨w, hw, rfl, rfl⟩
    obtain ⟨L, hL, hd, hs⟩ := scatter_ok_of_defined index es value wsa mem m hm wa hwa
    rw [ha wa hwa] at hs
    exact ⟨L, by rw [← hblock]; exact hL, by rw [← hpindex]; exact hd,
      by rw [hb w hw]; exact hs⟩
  have cover : ∀ (wsa wsb : List Write) (b j : Nat),
      (∀ b p, (∃ w ∈ wsa, w.block = b ∧ w.pindex = p) →
        (∃ w ∈ wsb, w.block = b ∧ w.pindex = p)) →
      (∃ w ∈ wsa, b = w.block ∧ es * w.pindex ≤ j ∧ j < es * w.pindex + es) →
      ∃ w ∈ wsb, b = w.block ∧ es * w.pindex ≤ j ∧ j < es * w.pindex + es := by
    intro wsa wsb b j hsub hc
    obtain ⟨w, hw, hb, hlo, hhi⟩ := hc
    obtain ⟨w1, hw1, hblock, hpindex⟩ := hsub w.block w.pindex ⟨w, hw, rfl, rfl⟩
    exact ⟨w1, hw1, by rw [hblock]; exact hb, by rw [hpindex]; exact hlo,
      by rw [hpindex]; exact hhi⟩
  cases hm1 : scatter index es value ws1 mem with
  | none =>
    cases hm2 : scatter index es value ws2 mem with
    | none => rfl
    | some m2 =>
      obtain ⟨m1, hm⟩ := transfer ws2 ws1 m2 h2 h1 (fun b p h => (hsame b p).mp h) hm2
      rw [hm1] at hm
      cases hm
  | some m1 =>
    obtain ⟨m2, hm2⟩ := transfer ws1 ws2 m1 h1 h2 (fun b p h => (hsame b p).mpr h) hm1
    rw [hm2]
    congr 1
    apply Memory.ext_bytes
    · rw [scatter_metadata index es value ws1 mem m1 hm1,
        scatter_metadata index es value ws2 mem m2 hm2]
    · intro b a j
      by_cases hc : a = index ∧
          ∃ w ∈ ws1, b = w.block ∧ es * w.pindex ≤ j ∧ j < es * w.pindex + es
      · obtain ⟨ha, hc1⟩ := hc
        subst ha
        rw [scatter_fill_byte a es value ws1 mem m1 hm1 h1 b j hc1,
          scatter_fill_byte a es value ws2 mem m2 hm2 h2 b j
            (cover ws1 ws2 b j (fun b p h => (hsame b p).mp h) hc1)]
      · rw [scatter_byte_frame index es value ws1 mem m1 hm1 b a j
            (fun w hw hh => hc ⟨hh.2.1, w, hw, hh.1, hh.2.2.1, hh.2.2.2⟩),
          scatter_byte_frame index es value ws2 mem m2 hm2 b a j
            (fun w hw hh => hc ⟨hh.2.1,
              cover ws2 ws1 b j (fun b p h => (hsame b p).mpr h)
                ⟨w, hw, hh.1, hh.2.2.1, hh.2.2.2⟩⟩)]

theorem writes_from_cover (f : Nat → Nat) (ds : List (Nat × Nat)) (k : Nat) (d : Nat × Nat)
    (hd : d ∈ ds) : ∃ w ∈ writes_from f ds k, w.block = d.1 ∧ w.pindex = d.2 := by
  induction ds generalizing k with
  | nil => simp at hd
  | cons x xs ih =>
    rcases List.mem_cons.mp hd with h | h
    · subst h
      exact ⟨⟨d.1, d.2, f k⟩, List.mem_cons_self _ _, rfl, rfl⟩
    · obtain ⟨w, hw, hb, hp⟩ := ih (k + 1) h
      exact ⟨w, List.mem_cons_of_mem _ hw, hb, hp⟩

theorem writes_from_zero (ds : List (Nat × Nat)) (k : Nat) :
    ∀ w ∈ writes_from (fun _ => 0) ds k, w.src_offset = 0 := by
  intro w hw
  obtain ⟨i, _, he⟩ := mem_writes_from_offset (fun _ => 0) ds k w hw
  exact he

theorem writes_from_same (f : Nat → Nat) (ds1 ds2 : List (Nat × Nat)) (k1 k2 : Nat)
    (h : ∀ d, d ∈ ds1 ↔ d ∈ ds2) (b p : Nat) :
    (∃ w ∈ writes_from f ds1 k1, w.block = b ∧ w.pindex = p) ↔
      (∃ w ∈ writes_from f ds2 k2, w.block = b ∧ w.pindex = p) := by
  have half : ∀ (da db : List (Nat × Nat)) (ka kb : Nat), (∀ d, d ∈ da → d ∈ db) →
      (∃ w ∈ writes_from f da ka, w.block = b ∧ w.pindex = p) →
      ∃ w ∈ writes_from f db kb, w.block = b ∧ w.pindex = p := by
    intro da db ka kb hsub hex
    obtain ⟨w, hw, hb, hp⟩ := hex
    have hin := hsub _ (mem_writes_from f da ka w hw)
    obtain ⟨w1, hw1, hb1, hp1⟩ := writes_from_cover f db kb _ hin
    exact ⟨w1, hw1, by rw [hb1]; exact hb, by rw [hp1]; exact hp⟩
  exact ⟨half ds1 ds2 k1 k2 (fun d hd => (h d).mp hd),
    half ds2 ds1 k2 k1 (fun d hd => (h d).mpr hd)⟩

theorem forall2_mem_right {R : ParticleSet → ParticleSet → Prop} (l1 l2 : List ParticleSet)
    (h : List.Forall₂ R l1 l2) (t : ParticleSet) (ht : t ∈ l2) : ∃ s ∈ l1, R s t := by
  induction h with
  | nil => simp at ht
  | cons hr _ ih =>
    rcases List.mem_cons.mp ht with e | e
    · subst e
      exact ⟨_, List.mem_cons_self _ _, hr⟩
    · obtain ⟨s, hs, hrs⟩ := ih e
      exact ⟨s, List.mem_cons_of_mem _ hs, hrs⟩

theorem forall2_mem_left {R : ParticleSet → ParticleSet → Prop} (l1 l2 : List ParticleSet)
    (h : List.Forall₂ R l1 l2) (s : ParticleSet) (hs : s ∈ l1) : ∃ t ∈ l2, R s t := by
  induction h with
  | nil => simp at hs
  | cons hr _ ih =>
    rcases List.mem_cons.mp hs with e | e
    · subst e
      exact ⟨_, List.mem_cons_self _ _, hr⟩
    · obtain ⟨t, ht, hrt⟩ := ih e
      exact ⟨t, List.mem_cons_of_mem _ ht, hrt⟩

theorem destinations_reordered (sets sets1 sets2 : List ParticleSet)
    (hwithin : List.Forall₂
      (fun s t => t.block = s.block ∧ t.pindices.Perm s.pindices) sets sets1)
    (hsets : sets2.Perm sets1) (d : Nat × Nat) :
    d ∈ destinations sets2 ↔ d ∈ destinations sets := by
  obtain ⟨b, p⟩ := d
  rw [mem_destinations, mem_destinations]
  constructor
  · rintro ⟨t, ht, hb, hp⟩
    obtain ⟨s, hs, hblock, hperm⟩ := forall2_mem_right sets sets1 hwithin t
      (hsets.mem_iff.mp ht)
    exact ⟨s, hs, by rw [← hblock]; exact hb, hperm.mem_iff.mp hp⟩
  · rintro ⟨s, hs, hb, hp⟩
    obtain ⟨t, ht, hblock, hperm⟩ := forall2_mem_left sets sets1 hwithin s hs
    exact ⟨t, hsets.mem_iff.mpr ht, by rw [hblock]; exact hb, hperm.mem_iff.mpr hp⟩

theorem Writable.reordered (mem : Memory) (index es : Nat) (s t : ParticleSet)
    (hw : Writable mem index es s) (hblock : t.block = s.block)
    (hperm : t.pindices.Perm s.pindices) : Writable mem index es t := by
  obtain ⟨L, h1, h3⟩ := hw
  exact ⟨L, by rw [hblock]; exact h1, fun p hp => h3 p (hperm.mem_iff.mp hp)⟩

/-- C16, with the `uint` range of the code made explicit.  The order of a fill
is immaterial: when the pindices are below the block capacity and every selected
slot starts at a byte offset below `UINT_RANGE`, the generic fill of an
attribute with a value has the same outcome, and so leaves the same storage,
after the pindices of every set are permuted and the sets themselves are
permuted, also when destinations repeat; and a second fill with the same value
on the storage the first one left gives that storage again. -/
theorem fill_order_immaterial (name : String) (info : AttributesInfo)
    (sets sets1 sets2 : List ParticleSet) (mem : Memory) (T : AttributeType) (index : Nat)
    (value : List Nat) (hT : info.type_of index = some T)
    (hcap : ∀ s ∈ sets, s.in_capacity mem index (size_of_attribute_type T) = true)
    (hofs : ∀ s ∈ sets, s.offsets_fit (size_of_attribute_type T) = true)
    (hwithin : List.Forall₂
      (fun s t => t.block = s.block ∧ t.pindices.Perm s.pindices) sets sets1)
    (hsets : sets2.Perm sets1) :
    (ParticleSets.new name info sets2).fill_elements index value mem =
      (ParticleSets.new name info sets).fill_elements index value mem ∧
    ((ParticleSets.new name info sets).fill_elements index value mem).bind
        (fun mem1 => (ParticleSets.new name info sets).fill_elements index value mem1) =
      (ParticleSets.new name info sets).fill_elements index value mem := by
  have hes := size_of_attribute_type_pos T
  have hW : ∀ s ∈ sets, Writable mem index (size_of_attribute_type T) s :=
    fun s hs => capacity_writable mem index _ s (hcap s hs) (hofs s hs)
  have hW2 : ∀ t ∈ sets2, Writable mem index (size_of_attribute_type T) t := by
    intro t ht
    obtain ⟨s, hs, hblock, hperm⟩ := forall2_mem_right sets sets1 hwithin t
      (hsets.mem_iff.mp ht)
    exact (hW s hs).reordered mem index _ s t hblock hperm
  have hfill : ∀ (l : List ParticleSet) (m : Memory),
      (∀ s ∈ l, Writable m index (size_of_attribute_type T) s) →
      (ParticleSets.new name info l).fill_elements index value m =
        scatter index (size_of_attribute_type T) value
          (writes_from (fun _ => 0) (destinations l) 0) m := by
    intro l m hl
    unfold ParticleSets.fill_elements
    simp only [ParticleSets.new, hT]
    exact fill_elements_outer_eq index _ value l m 0 hes hl
  constructor
  · rw [hfill sets2 mem hW2, hfill sets mem hW]
    exact scatter_fill_congr index _ value _ _ mem (writes_from_zero _ 0)
      (writes_from_zero _ 0)
      (writes_from_same _ _ _ 0 0 (destinations_reordered sets sets1 sets2 hwithin hsets))
  · rw [hfill sets mem hW]
    cases hm : scatter index (size_of_attribute_type T) value
        (writes_from (fun _ => 0) (destinations sets) 0) mem with
    | none => rfl
    | some mem1 =>
      simp only [Option.some_bind]
      rw [hfill sets mem1 (fun s hs => Writable.of_column_length mem mem1 index _ s
        (scatter_column_length index _ value _ mem mem1 hm) (hW s hs))]
      have happ := scatter_append index (size_of_attribute_type T) value
        (writes_from (fun _ => 0) (destinations sets) 0)
        (writes_from (fun _ => 0) (destinations sets) 0) mem
      rw [hm, Option.some_bind] at happ
      rw [← happ, ← hm]
      apply scatter_fill_congr
      · intro w hw
        rcases List.mem_append.mp hw with h | h
        · exact writes_from_zero _ 0 w h
        · exact writes_from_zero _ 0 w h
      · exact writes_from_zero _ 0
      · intro b p
        constructor
        · rintro ⟨w, hw, hb, hp⟩
          rcases List.mem_append.mp hw with h | h
          · exact ⟨w, h, hb, hp⟩
          · exact ⟨w, h, hb, hp⟩
        · rintro ⟨w, hw, hb, hp⟩
          exact ⟨w, List.mem_append_left _ hw, hb, hp⟩

/-- C16 at two sets of block 0 that share slot 1, with the pindices of each set
reversed and the two sets swapped. -/
theorem fill_order_immaterial_witness :
    (ParticleSets.new "particles" example_info [⟨0, [2, 1]⟩, ⟨0, [1, 0]⟩]).fill_elements 1
        [7, 0, 0, 0] example_storage =
      (ParticleSets.new "particles" example_info example_sets_overlap).fill_elements 1
        [7, 0, 0, 0] example_storage ∧
    ((ParticleSets.new "particles" example_info example_sets_overlap).fill_elements 1
        [7, 0, 0, 0] example_storage).bind
        (fun mem1 => (ParticleSets.new "particles" example_info
          example_sets_overlap).fill_elements 1 [7, 0, 0, 0] mem1) =
      (ParticleSets.new "particles" example_info example_sets_overlap).fill_elements 1
        [7, 0, 0, 0] example_storage :=
  fill_order_immaterial "particles" example_info example_sets_overlap
    [⟨0, [1, 0]⟩, ⟨0, [2, 1]⟩] [⟨0, [2, 1]⟩, ⟨0, [1, 0]⟩] example_storage .Integer 1
    [7, 0, 0, 0] (by decide) (by decide) (by decide)
    (List.Forall₂.cons ⟨rfl, by decide⟩ (List.Forall₂.cons ⟨rfl, by decide⟩ List.Forall₂.nil))
    (by decide)

/-! ## Byte offsets beyond the `uint` range -/

theorem fill_elements_single (name : String) (info : AttributesInfo) (b p index : Nat)
    (T : AttributeType) (value col : List Nat) (mem : Memory)
    (hT : info.type_of index = some T) (hc : mem.column b index = some col) :
    (ParticleSets.new name info [⟨b, [p]⟩]).fill_elements index value mem =
      memcpy mem ⟨b, index, (size_of_attribute_type T * p) % UINT_RANGE⟩ value 0
        (size_of_attribute_type T) := by
  unfold ParticleSets.fill_elements
  simp only [ParticleSets.new, hT, fill_elements_outer, get_ptr, hc, fill_elements_inner,
    POINTER_OFFSET, Nat.zero_add]
  cases memcpy mem ⟨b, index, (size_of_attribute_type T * p) % UINT_RANGE⟩ value 0
      (size_of_attribute_type T) with
  | none => rfl
  | some m => rfl

theorem fill_elements_pair (name : String) (info : AttributesInfo) (b p q index : Nat)
    (T : AttributeType) (value col : List Nat) (mem : Memory)
    (hT : info.type_of index = some T) (hc : mem.column b index = some col) :
    (ParticleSets.new name info [⟨b, [p, q]⟩]).fill_elements index value mem =
      (memcpy mem ⟨b, index, (size_of_attribute_type T * p) % UINT_RANGE⟩ value 0
        (size_of_attribute_type T)).bind fun m =>
        memcpy m ⟨b, index, (size_of_attribute_type T * q) % UINT_RANGE⟩ value 0
          (size_of_attribute_type T) := by
  unfold ParticleSets.fill_elements
  simp only [ParticleSets.new, hT, fill_elements_outer, get_ptr, hc, fill_elements_inner,
    POINTER_OFFSET, Nat.zero_add]
  cases memcpy mem ⟨b, index, (size_of_attribute_type T * p) % UINT_RANGE⟩ value 0
      (size_of_attribute_type T) with
  | none => rfl
  | some m =>
    simp only [Option.some_bind]
    cases memcpy m ⟨b, index, (size_of_attribute_type T * q) % UINT_RANGE⟩ value 0
        (size_of_attribute_type T) with
    | none => rfl
    | some m1 => rfl

theorem set_elements_single (name : String) (info : AttributesInfo) (b p index : Nat)
    (T : AttributeType) (data col : List Nat) (mem : Memory)
    (hT : info.type_of index = some T) (hc : mem.column b index = some col) :
    (ParticleSets.new name info [⟨b, [p]⟩]).set_elements index data mem =
      memcpy mem ⟨b, index, (size_of_attribute_type T * p) % UINT_RANGE⟩ data 0
        (size_of_attribute_type T) := by
  unfold ParticleSets.set_elements
  simp only [ParticleSets.new, hT, set_elements_outer, get_ptr, hc, set_elements_inner,
    POINTER_OFFSET, Nat.zero_add, Nat.mul_zero, Nat.zero_mod]
  cases memcpy mem ⟨b, index, (size_of_attribute_type T * p) % UINT_RANGE⟩ data 0
      (size_of_attribute_type T) with
  | none => rfl
  | some m => rfl

theorem large_column : large_storage.column 0 0 = some (List.replicate 4294967316 0) := rfl

theorem large_column_length : large_storage.column_length 0 0 = some 4294967316 := by
  unfold Memory.column_length
  rw [large_column, Option.map_some', List.length_replicate]

theorem large_byte (j : Nat) (hj : j < 4294967316) : large_storage.byte 0 0 j = some 0 := by
  unfold Memory.byte
  rw [large_column, Option.some_bind, List.getElem?_replicate, if_pos hj]

theorem large_last_slot :
    large_storage.element 0 0 12 357913942 = some (List.replicate 12 0) := by
  unfold Memory.element read_bytes
  rw [large_column, Option.some_bind, List.length_replicate, if_pos (by decide),
    List.drop_replicate, List.take_replicate]
  rfl

theorem large_in_capacity (s : ParticleSet) (hb : s.block = 0)
    (hp : ∀ p ∈ s.pindices, p < 357913943) : s.in_capacity large_storage 0 12 = true := by
  unfold ParticleSet.in_capacity
  have h0 : large_storage[s.block]? = some large_block := by rw [hb]; rfl
  have h1 : large_block.columns[0]? = some (List.replicate 4294967316 0) := rfl
  simp only [h0, h1, List.length_replicate, Bool.and_eq_true, beq_iff_eq, List.all_eq_true,
    decide_eq_true_eq]
  exact ⟨by decide, hp⟩

/-- The one copy that a bulk write of the last slot of the large block makes:
it starts at byte 8 of the column, so byte 8 takes the first source byte and
the last slot keeps its zero bytes. -/
theorem large_wrapped_copy (src : List Nat) (mem1 : Memory)
    (h : memcpy large_storage ⟨0, 0, 8⟩ src 0 12 = some mem1) :
    mem1.byte 0 0 8 = src[0]? ∧
      mem1.element 0 0 12 357913942 = some (List.replicate 12 0) := by
  constructor
  · rw [memcpy_byte large_storage mem1 _ src 0 12 h]
    simp only []
    rw [if_pos ⟨trivial, trivial, Nat.le_refl 8, by decide⟩]
  · rw [← large_last_slot]
    apply Memory.element_congr large_storage mem1 0 0 12 357913942
      (memcpy_column_length large_storage mem1 _ src 0 12 h 0 0)
    intro t _
    rw [memcpy_byte large_storage mem1 _ src 0 12 h]
    apply if_neg
    simp only []
    omega

theorem large_copy_defined (src : List Nat) (hs : 12 ≤ src.length) :
    ∃ mem1, memcpy large_storage ⟨0, 0, 8⟩ src 0 12 = some mem1 :=
  memcpy_defined large_storage ⟨0, 0, 8⟩ src 0 12 4294967316 large_column_length
    (by omega) (by decide)

theorem set_of_body (ps : ParticleSets) (T : AttributeType) (index : Nat)
    (data : List (List Nat)) (mem : Memory) (hlen : data.length = ps.m_size)
    (hT : ps.m_attributes_info.type_of index = some T) :
    ps.set T index data mem =
      Result.of_body (ps.set_elements index (ArrayRef.begin data) mem) := by
  unfold ParticleSets.set
  simp only [BLI_assert, hlen, hT, beq_self_eq_true, if_true]

theorem set_repeated_of_body (ps : ParticleSets) (T : AttributeType) (index : Nat)
    (data : List (List Nat)) (dv : List Nat) (mem : Memory)
    (hT : ps.m_attributes_info.type_of index = some T)
    (hdv : ps.m_attributes_info.default_value_ptr index = some dv) :
    ps.set_repeated T index data mem =
      Result.of_body
        (ps.set_repeated_elements index (ArrayRef.begin data) data.length dv mem) := by
  unfold ParticleSets.set_repeated
  simp only [BLI_assert, hT, hdv, beq_self_eq_true, if_true]

theorem large_wrap : (size_of_attribute_type .Float3 * 357913942) % UINT_RANGE = 8 := by
  decide

theorem large_sets_in_capacity :
    ∀ s ∈ large_sets, s.in_capacity large_storage 0 (size_of_attribute_type .Float3) = true := by
  intro s hs
  simp only [large_sets, List.mem_singleton] at hs
  subst hs
  apply large_in_capacity _ rfl
  intro p hp
  simp only [List.mem_singleton] at hp
  subst hp
  decide

theorem large_fill_elements (value : List Nat) :
    (ParticleSets.new "particles" large_info large_sets).fill_elements 0 value large_storage =
      memcpy large_storage ⟨0, 0, 8⟩ value 0 12 := by
  have h := fill_elements_single "particles" large_info 0 357913942 0 .Float3 value _
    large_storage rfl large_column
  rw [large_wrap] at h
  exact h

theorem large_set_elements (data : List Nat) :
    (ParticleSets.new "particles" large_info large_sets).set_elements 0 data large_storage =
      memcpy large_storage ⟨0, 0, 8⟩ data 0 12 := by
  have h := set_elements_single "particles" large_info 0 357913942 0 .Float3 data _
    large_storage rfl large_column
  rw [large_wrap] at h
  exact h

/-- C1 fails beyond the `uint` byte range: in a float-vector block of capacity
357913943 the pindex 357913942 is below the capacity, yet `set` with one value
of twelve bytes 1 returns with the slot of that destination still holding its
zero bytes; the copy went to byte 8 of the column. -/
theorem set_round_trip_fails_beyond_uint :
    large_info.type_of 0 = some AttributeType.Float3 ∧
    (∀ s ∈ large_sets,
      s.in_capacity large_storage 0 (size_of_attribute_type .Float3) = true) ∧
    (destinations large_sets).Nodup ∧
    [List.replicate 12 1].length = (ParticleSets.new "particles" large_info large_sets).m_size ∧
    (destinations large_sets)[0]? = some (0, 357913942) ∧
    ∃ mem1,
      (ParticleSets.new "particles" large_info large_sets).set .Float3 0 [List.replicate 12 1]
        large_storage = Result.returned mem1 ∧
      mem1.element 0 0 12 357913942 = some (List.replicate 12 0) ∧
      List.replicate 12 0 ≠ (List.replicate 12 1 : List Nat) ∧
      mem1.byte 0 0 8 = some 1 := by
  refine ⟨rfl, large_sets_in_capacity, by decide, by decide, rfl, ?_⟩
  obtain ⟨mem1, hm⟩ := large_copy_defined (ArrayRef.begin [List.replicate 12 1]) (by decide)
  obtain ⟨h8, hslot⟩ := large_wrapped_copy _ mem1 hm
  refine ⟨mem1, ?_, hslot, by decide, h8⟩
  rw [set_of_body (ParticleSets.new "particles" large_info large_sets) .Float3 0
    [List.replicate 12 1] large_storage (by decide) rfl, large_set_elements, hm]
  rfl

/-- C2 fails beyond the `uint` byte range: `set_repeated` with the one value of
twelve bytes 1 returns with the last slot of the large block, its only
destination, still holding zero bytes instead of `data[0 mod 1]`. -/
theorem set_repeated_cyclic_fails_beyond_uint :
    large_info.type_of 0 = some AttributeType.Float3 ∧
    (∀ s ∈ large_sets,
      s.in_capacity large_storage 0 (size_of_attribute_type .Float3) = true) ∧
    (destinations large_sets).Nodup ∧
    (destinations large_sets)[0]? = some (0, 357913942) ∧
    ∃ mem1,
      (ParticleSets.new "particles" large_info large_sets).set_repeated .Float3 0
        [List.replicate 12 1] large_storage = Result.returned mem1 ∧
      mem1.element 0 0 12 357913942 = some (List.replicate 12 0) ∧
      [List.replicate 12 1][0 % 1]? = some (List.replicate 12 1) ∧
      List.replicate 12 0 ≠ (List.replicate 12 1 : List Nat) := by
  refine ⟨rfl, large_sets_in_capacity, by decide, rfl, ?_⟩
  obtain ⟨mem1, hm⟩ := large_copy_defined (List.replicate 12 1) (by decide)
  obtain ⟨_, hslot⟩ := large_wrapped_copy _ mem1 hm
  refine ⟨mem1, ?_, hslot, rfl, by decide⟩
  have hflat : ArrayRef.begin [List.replicate 12 1] = List.replicate 12 1 := by
    unfold ArrayRef.begin
    rw [List.flatten_cons, List.flatten_nil, List.append_nil]
  rw [set_repeated_of_body (ParticleSets.new "particles" large_info large_sets) .Float3 0
    [List.replicate 12 1] (List.replicate 12 0) large_storage rfl rfl, hflat,
    List.length_singleton, set_repeated_elements_one, large_fill_elements, hm]
  rfl

/-- C4 fails beyond the `uint` byte range: `fill_float3` of the last slot of the
large block, with the matching type and the pindex below the capacity, returns
with that slot still holding zero bytes and with byte 8 of the column set. -/
theorem fill_postcondition_fails_beyond_uint :
    large_info.type_of 0 = some AttributeType.Float3 ∧
    (∀ s ∈ large_sets,
      s.in_capacity large_storage 0 (size_of_attribute_type .Float3) = true) ∧
    ∃ mem1,
      (ParticleSets.new "particles" large_info large_sets).fill_float3 0 ⟨⟨1⟩, ⟨1⟩, ⟨1⟩⟩
        large_storage = Result.returned mem1 ∧
      mem1.element 0 0 12 357913942 = some (List.replicate 12 0) ∧
      List.replicate 12 0 ≠ bytes_of_float3 ⟨⟨1⟩, ⟨1⟩, ⟨1⟩⟩ ∧
      mem1.byte 0 0 8 = some 1 := by
  refine ⟨rfl, large_sets_in_capacity, ?_⟩
  obtain ⟨mem1, hm⟩ := large_copy_defined (bytes_of_float3 ⟨⟨1⟩, ⟨1⟩, ⟨1⟩⟩) (by decide)
  obtain ⟨h8, hslot⟩ := large_wrapped_copy _ mem1 hm
  refine ⟨mem1, ?_, hslot, by decide, h8⟩
  unfold ParticleSets.fill_float3
  rw [large_fill_elements, hm]
  rfl

/-- C5 fails beyond the `uint` byte range: the returning `fill_float3` of the
last slot of the large block changes byte 8 of the column from 0 to 1, a byte
that lies in no selected slot. -/
theorem bulk_write_frame_fails_beyond_uint :
    large_info.type_of 0 = some AttributeType.Float3 ∧
    (∀ s ∈ large_sets,
      s.in_capacity large_storage 0 (size_of_attribute_type .Float3) = true) ∧
    ¬ (∃ s ∈ large_sets, s.block = 0 ∧ ∃ p ∈ s.pindices, 12 * p ≤ 8 ∧ 8 < 12 * p + 12) ∧
    large_storage.byte 0 0 8 = some 0 ∧
    ∃ mem1,
      (BulkWrite.fill_float3 ⟨⟨1⟩, ⟨1⟩, ⟨1⟩⟩).run
        (ParticleSets.new "particles" large_info large_sets) 0 large_storage =
        Result.returned mem1 ∧
      mem1.byte 0 0 8 = some 1 := by
  refine ⟨rfl, large_sets_in_capacity, by decide, large_byte 8 (by decide), ?_⟩
  obtain ⟨mem1, hm⟩ := large_copy_defined (bytes_of_float3 ⟨⟨1⟩, ⟨1⟩, ⟨1⟩⟩) (by decide)
  obtain ⟨h8, _⟩ := large_wrapped_copy _ mem1 hm
  refine ⟨mem1, ?_, h8⟩
  show (ParticleSets.new "particles" large_info large_sets).fill_float3 0 ⟨⟨1⟩, ⟨1⟩, ⟨1⟩⟩
    large_storage = Result.returned mem1
  unfold ParticleSets.fill_float3
  rw [large_fill_elements, hm]
  rfl

/-- C15 fails beyond the `uint` byte range: with the pindex 357913942 below the
capacity and one value for the one destination, the only copy of `set_elements`
starts at byte 8 of the column, which is the start of no slot; `set` returns
with byte 8 changed and the slot of the pindex not written. -/
theorem set_bounds_fail_beyond_uint :
    large_info.type_of 0 = some AttributeType.Float3 ∧
    (∀ s ∈ large_sets,
      s.in_capacity large_storage 0 (size_of_attribute_type .Float3) = true) ∧
    [List.replicate 12 1].length = (ParticleSets.new "particles" large_info large_sets).m_size ∧
    (ParticleSets.new "particles" large_info large_sets).set_elements 0
        (ArrayRef.begin [List.replicate 12 1]) large_storage =
      memcpy large_storage ⟨0, 0, 8⟩ (ArrayRef.begin [List.replicate 12 1]) 0 12 ∧
    8 % 12 ≠ 0 ∧ 8 ≠ 12 * 357913942 ∧
    large_storage.byte 0 0 8 = some 0 ∧
    ∃ mem1,
      (ParticleSets.new "particles" large_info large_sets).set .Float3 0 [List.replicate 12 1]
        large_storage = Result.returned mem1 ∧
      mem1.byte 0 0 8 = some 1 ∧
      mem1.element 0 0 12 357913942 = some (List.replicate 12 0) := by
  refine ⟨rfl, large_sets_in_capacity, by decide, large_set_elements _, by decide, by decide,
    large_byte 8 (by decide), ?_⟩
  obtain ⟨mem1, hm⟩ := large_copy_defined (ArrayRef.begin [List.replicate 12 1]) (by decide)
  obtain ⟨h8, hslot⟩ := large_wrapped_copy _ mem1 hm
  refine ⟨mem1, ?_, h8, hslot⟩
  rw [set_of_body (ParticleSets.new "particles" large_info large_sets) .Float3 0
    [List.replicate 12 1] large_storage (by decide) rfl, large_set_elements, hm]
  rfl

theorem large_two_copies (d1 d2 : Nat) (h1 : d1 + 12 ≤ 4294967316)
    (h2 : d2 + 12 ≤ 4294967316) (h8 : d2 ≤ 8 ∧ 8 < d2 + 12) :
    ∃ m,
      ((memcpy large_storage ⟨0, 0, d1⟩ twelve_bytes 0 12).bind fun ma =>
        memcpy ma ⟨0, 0, d2⟩ twelve_bytes 0 12) = some m ∧
      m.byte 0 0 8 = twelve_bytes[0 + (8 - d2)]? := by
  obtain ⟨ma, hma⟩ := memcpy_defined large_storage ⟨0, 0, d1⟩ twelve_bytes 0 12 4294967316
    large_column_length (by decide) h1
  have hLa : ma.column_length 0 0 = some 4294967316 := by
    rw [memcpy_column_length large_storage ma _ twelve_bytes 0 12 hma]
    exact large_column_length
  obtain ⟨m, hm⟩ := memcpy_defined ma ⟨0, 0, d2⟩ twelve_bytes 0 12 4294967316 hLa
    (by decide) h2
  refine ⟨m, by rw [hma, Option.some_bind, hm], ?_⟩
  rw [memcpy_byte ma m _ twelve_bytes 0 12 hm]
  exact if_pos ⟨rfl, rfl, h8.1, h8.2⟩

/-- C16 fails beyond the `uint` byte range: in the large block the pindices 0
and 357913942 are distinct and below the capacity, yet the generic fill in the
order `[0, 357913942]` leaves 1 in byte 8 of the column and the fill in the
order `[357913942, 0]` leaves 9 there, so the two fills leave different
storage. -/
theorem fill_order_matters_beyond_uint :
    large_info.type_of 0 = some AttributeType.Float3 ∧
    (∀ s ∈ large_sets_first_last,
      s.in_capacity large_storage 0 (size_of_attribute_type .Float3) = true) ∧
    List.Forall₂ (fun s t => t.block = s.block ∧ t.pindices.Perm s.pindices)
      large_sets_first_last large_sets_last_first ∧
    ∃ m1 m2,
      (ParticleSets.new "particles" large_info large_sets_first_last).fill_elements 0
        twelve_bytes large_storage = some m1 ∧
      (ParticleSets.new "particles" large_info large_sets_last_first).fill_elements 0
        twelve_bytes large_storage = some m2 ∧
      m1.byte 0 0 8 = some 1 ∧ m2.byte 0 0 8 = some 9 := by
  have hzero : (size_of_attribute_type .Float3 * 0) % UINT_RANGE = 0 := by decide
  refine ⟨rfl, ?_, List.Forall₂.cons ⟨rfl, List.Perm.swap _ _ _⟩ List.Forall₂.nil, ?_⟩
  · intro s hs
    simp only [large_sets_first_last, List.mem_singleton] at hs
    subst hs
    apply large_in_capacity _ rfl
    intro p hp
    simp only [List.mem_cons, List.mem_singleton, List.not_mem_nil, or_false] at hp
    rcases hp with h | h
    · subst h
      decide
    · subst h
      decide
  · obtain ⟨m1, hm1, hb1⟩ := large_two_copies 0 8 (by decide) (by decide) (by decide)
    obtain ⟨m2, hm2, hb2⟩ := large_two_copies 8 0 (by decide) (by decide) (by decide)
    refine ⟨m1, m2, ?_, ?_, hb1, hb2⟩
    · have h := fill_elements_pair "particles" large_info 0 0 357913942 0 .Float3
        twelve_bytes _ large_storage rfl large_column
      rw [large_wrap, hzero] at h
      rw [show large_sets_first_last = [⟨0, [0, 357913942]⟩] from rfl, h]
      exact hm1
    · have h := fill_elements_pair "particles" large_info 0 357913942 0 0 .Float3
        twelve_bytes _ large_storage rfl large_column
      rw [large_wrap, hzero] at h
      rw [show large_sets_last_first = [⟨0, [357913942, 0]⟩] from rfl, h]
      exact hm2

end BParticles
